import Mathlib

/-!
Verification of the model-surgeon engine (a safetensors introspection and
surgery tool written in TypeScript) against its natural-language
specification.

Conventions of the shallow embedding:

* JavaScript strings are modelled as lists of characters (abbreviation
  MStr below).  The default JavaScript sort-order comparison is modelled
  as lexicographic comparison of character code points (strLeb); on the
  names appearing in all statements below the two coincide.
* JavaScript objects are modelled as association lists in property order,
  with property assignment replacing an existing key in place and
  appending a fresh key at the end, mirroring the JS property-order
  semantics.  The prototype-setter behaviour of the special key
  __proto__ is not modelled.
* JSON numbers are modelled as integers; every number appearing in the
  verified code paths (offsets, shapes, byte lengths) is integral.
* Fallible code returns Except.  IO is abstracted: file contents appear
  as explicit arguments (a file-existence predicate, a parsed header
  value, raw data bytes).
-/

/-- JavaScript string, as its list of characters. -/
abbrev MStr := List Char

/-- Lexicographic code-point comparison of strings; models the default
comparison used by Array.prototype.sort for string elements. -/
def strLeb : MStr → MStr → Bool
  | [], _ => true
  | _ :: _, [] => false
  | a :: as, b :: bs => if a = b then strLeb as bs else decide (a.val < b.val)

/-- Association-list lookup with the first matching key, modelling
property access on a JS object whose keys are unique. -/
def alookup {α : Type} : List (MStr × α) → MStr → Option α
  | [], _ => none
  | (k, v) :: rest, key => if k = key then some v else alookup rest key

/-- Property assignment on a JS object: replaces an existing key in
place, otherwise appends the new property at the end. -/
def aset {α : Type} : List (MStr × α) → MStr → α → List (MStr × α)
  | [], k, v => [(k, v)]
  | (k0, v0) :: rest, k, v =>
    if k0 = k then (k, v) :: rest else (k0, v0) :: aset rest k v

/-- JSON value, as produced by JSON.parse.  Numbers are modelled as
integers (see the file header). -/
inductive Json where
  | null
  | bool (b : Bool)
  | num (n : Int)
  | str (s : MStr)
  | arr (elems : List Json)
  | obj (entries : List (MStr × Json))

/-- Conversion of a JSON value inside an array to the string used by
Array.prototype.toString: null prints as the empty string there. -/
def jsArrItemToString (f : Json → MStr) : Json → MStr
  | .null => []
  | v => f v

/-- Intersperse a separator character between string chunks, as
Array.prototype.join does. -/
def joinWith (sep : Char) : List MStr → MStr
  | [] => []
  | [s] => s
  | s :: rest => s ++ sep :: joinWith sep rest

mutual
/-- The JavaScript String() coercion applied to a JSON value, as used by
the header parser when copying metadata values.  Integer numbers print
as their decimal representation, which matches JS for the safe-integer
range exercised here. -/
def jsToString : Json → MStr
  | .null => ("null").toList
  | .bool true => ("true").toList
  | .bool false => ("false").toList
  | .num n => (toString n).toList
  | .str s => s
  | .arr elems => joinWith (',') (jsToStringList elems)
  | .obj _ => ("[object Object]").toList

/-- String() of every element of a JSON array (null becoming empty). -/
def jsToStringList : List Json → List MStr
  | [] => []
  | v :: rest =>
    (match v with
      | .null => []
      | v0 => jsToString v0) :: jsToStringList rest
end

/-- Property access value.dtype etc. on a JSON value: an object yields
its property (or none when absent, the JS undefined); any other value
yields none.  (In JS, access on null or undefined throws; no verified
code path reaches that case.) -/
def jsField : Json → MStr → Option Json
  | .obj entries, key => alookup entries key
  | _, _ => none

/-- The twelve dtype tokens accepted by the header schema, from
VALID_DTYPES in src/types/safetensors.ts. -/
def VALID_DTYPES : List MStr :=
  [("F64").toList, ("F32").toList, ("F16").toList, ("BF16").toList,
   ("I64").toList, ("I32").toList, ("I16").toList, ("I8").toList,
   ("U8").toList, ("BOOL").toList, ("F8_E4M3").toList, ("F8_E5M2").toList]

/-- Parsed per-tensor record, from interface TensorInfo.  The shape is
kept as the raw JSON array elements, exactly as the parser stores the
array it received (the code casts without inspecting the elements). -/
structure TensorInfo where
  dtype : MStr
  shape : List Json
  dataOffsets : Int × Int

/-- Result of parseHeader, from interface ParsedHeader.  The byte length
of the header region is abstracted away (see ModelFile below). -/
structure ParsedHeader where
  metadata : List (MStr × MStr)
  tensors : List (MStr × TensorInfo)

/-- Schema errors raised by parseHeader for a tensor entry; the earlier
binary-level failures (corrupt container, oversized header, bad JSON)
are not reached from a parsed JSON value. -/
inductive HeaderError where
  | invalidDtype (key : MStr)
  | invalidShape (key : MStr)
  | invalidOffsets (key : MStr)

/-- The dtype check of parseHeader (headerParser.ts line 70): the entry
passes iff the dtype property is a truthy string contained in
VALID_DTYPES.  A missing property, a non-string and the (falsy) empty
string all fail, exactly as !tensorData.dtype || !VALID_DTYPES.has(..)
does. -/
def dtypeCheck (value : Json) : Option MStr :=
  match jsField value (("dtype").toList) with
  | some (.str s) => if s ∈ VALID_DTYPES then some s else none
  | _ => none

/-- The shape check of parseHeader (line 74): Array.isArray only; the
elements are not inspected. -/
def shapeCheck (value : Json) : Option (List Json) :=
  match jsField value (("shape").toList) with
  | some (.arr elems) => some elems
  | _ => none

/-- The data_offsets check of parseHeader (lines 78-85): an array of
exactly two numbers. -/
def offsetsCheck (value : Json) : Option (Int × Int) :=
  match jsField value (("data_offsets").toList) with
  | some (.arr [.num a, .num b]) => some (a, b)
  | _ => none

/-- Copy a __metadata__ JSON object into the metadata map with all
values coerced by String(), as headerParser.ts lines 55-61 do.  Only an
object value is copied (if value and typeof value is object); the
array case of that test is included for faithfulness, indexing entries
by their decimal position as Object.entries does on an array. -/
def copyMetadata (md : List (MStr × MStr)) : Json → List (MStr × MStr)
  | .obj entries => entries.foldl (fun m kv => aset m kv.1 (jsToString kv.2)) md
  | .arr elems =>
    (elems.enum.map (fun iv => ((toString iv.1).toList, iv.2))).foldl
      (fun m kv => aset m kv.1 (jsToString kv.2)) md
  | _ => md

/-- The per-entry validation loop of parseHeader (lines 54-92), as a
fold with early exit over the top-level JSON entries, carrying the
metadata and tensors accumulators. -/
def parseEntries :
    List (MStr × Json) → List (MStr × MStr) → List (MStr × TensorInfo) →
    Except HeaderError (List (MStr × MStr) × List (MStr × TensorInfo))
  | [], md, ts => .ok (md, ts)
  | (key, value) :: rest, md, ts =>
    if key = ("__metadata__").toList then
      parseEntries rest (copyMetadata md value) ts
    else
      match dtypeCheck value with
      | none => .error (.invalidDtype key)
      | some dt =>
        match shapeCheck value with
        | none => .error (.invalidShape key)
        | some sh =>
          match offsetsCheck value with
          | none => .error (.invalidOffsets key)
          | some off =>
            parseEntries rest md (aset ts key ⟨dt, sh, off⟩)

/-- R101 parseHeader, from the point where the header JSON has been
decoded: validates every top-level entry and builds the ParsedHeader.
A non-object value yields no entries (Object.entries of a primitive is
empty; the null case, which throws in JS, is unreachable from the
verified inputs). -/
def parseHeaderJson (raw : Json) : Except HeaderError ParsedHeader :=
  match raw with
  | .obj entries =>
    match parseEntries entries [] [] with
    | .ok (md, ts) => .ok ⟨md, ts⟩
    | .error e => .error e
  | _ => .ok ⟨[], []⟩

/-- Serializer input per tensor, from interface SerializedTensorInfo.
The synchronous buffer and the asynchronous byte provider both deliver
a byte list, modelled by the single data field. -/
structure SerializedTensorInfo where
  dtype : MStr
  shape : List Int
  byteLength : Nat
  data : List Nat

/-- Serializer input, from interface SerializationInput (the progress
callback is a pure side channel and is omitted). -/
structure SerializationInput where
  metadata : List (MStr × MStr)
  tensors : List (MStr × SerializedTensorInfo)

/-- A written container file.  The eight-byte length prefix and the
space padding of the header text are abstracted away: parseHeader
decodes the same JSON value that serialize stringified (JSON.parse
inverts JSON.stringify and ignores the trailing spaces), and the
absolute data offset 8 + headerLength cancels between writer and
reader, so tensor data is addressed relative to the data region. -/
structure ModelFile where
  header : Json
  data : List Nat

/-- The header JSON entry written for one tensor (serializer.ts lines
37-41). -/
def tensorEntryJson (t : SerializedTensorInfo) (off : Nat) : Json :=
  .obj [(("dtype").toList, .str t.dtype),
        (("shape").toList, .arr (t.shape.map Json.num)),
        (("data_offsets").toList,
          .arr [.num (off : Int), .num ((off + t.byteLength : Nat) : Int)])]

/-- The offset-computing pass of serialize (lines 33-43), over the
tensors resolved in sorted-name order: produces the header entries with
contiguous, gapless offset ranges. -/
def headerEntriesFrom : List (MStr × SerializedTensorInfo) → Nat → List (MStr × Json)
  | [], _ => []
  | (n, t) :: rest, off =>
    (n, tensorEntryJson t off) :: headerEntriesFrom rest (off + t.byteLength)

/-- The data-writing pass of serialize (lines 75-91): each tensor's
bytes in the same sorted order, concatenated. -/
def dataFrom : List (MStr × SerializedTensorInfo) → List Nat
  | [] => []
  | (_, t) :: rest => t.data ++ dataFrom rest

/-- The tensors of the input resolved in sorted name order, mirroring
the loop for (name of tensorNames) with the lookup tensors[name].  A
name whose lookup fails is skipped (unreachable: the names are the keys
of the map). -/
def resolveSorted (input : SerializationInput) : List (MStr × SerializedTensorInfo) :=
  (List.insertionSort (fun a b => strLeb a b = true) (input.tensors.map Prod.fst)).filterMap
    (fun n => (alookup input.tensors n).map (fun t => (n, t)))

/-- R500 serialize: build the header object starting from __metadata__
and assigning one entry per tensor in sorted order, then write the data
bytes in that same order. -/
def serialize (input : SerializationInput) : ModelFile :=
  let resolved := resolveSorted input
  { header := .obj ((headerEntriesFrom resolved 0).foldl
      (fun o kv => aset o kv.1 kv.2)
      [(("__metadata__").toList, .obj (input.metadata.map (fun kv => (kv.1, Json.str kv.2))))]),
    data := dataFrom resolved }

/-- R102 readTensorData: returns exactly end - start bytes read from
absolute file offset 8 + headerLength + start; relative to the data
region that is the range from start to end. -/
def readTensorData (f : ModelFile) (s e : Nat) : List Nat :=
  (f.data.drop s).take (e - s)

/-- Tensor record extended with its shard file, from interface
ShardedTensorInfo. -/
structure ShardedTensorInfo where
  dtype : MStr
  shape : List Json
  dataOffsets : Int × Int
  shardFile : MStr

/-- Unified tensor map over all shards, from interface UnifiedTensorMap. -/
structure UnifiedTensorMap where
  metadata : List (MStr × MStr)
  tensors : List (MStr × ShardedTensorInfo)
  shardHeaderLengths : List (MStr × Nat)

/-- Parsed header of one shard file, including its header byte length
(field headerLength of ParsedHeader in the source). -/
structure ShardHeader where
  metadata : List (MStr × MStr)
  tensors : List (MStr × TensorInfo)
  headerLength : Nat

/-- Failures of the sharded-model resolver (part of the error taxonomy
in the spec). -/
inductive ShardError where
  | invalidIndexJson
  | missingWeightMap
  | missingShardFiles (names : List MStr)
  | shardNotParsed (shard : MStr)
  | headerFailed (shard : MStr)
  | tensorNotInShard (tensor : MStr) (shard : MStr)

/-- The parsed shard index file.  The weight_map field is none when the
index JSON lacks a weight_map object (the !index.weight_map or typeof
check in the source). -/
structure ShardIndex where
  metadata : Option (List (MStr × MStr))
  weight_map : Option (List (MStr × MStr))

/-- Deduplicate preserving first occurrences, as spreading new
Set(values) does: each element is kept when not already seen. -/
def dedupSeen : List MStr → List MStr → List MStr
  | [], _ => []
  | s :: rest, seen =>
    if s ∈ seen then dedupSeen rest seen else s :: dedupSeen rest (seen ++ [s])

/-- Deduplicate preserving first occurrences, as new Set(values) with
insertion order does. -/
def dedupKeepFirst (l : List MStr) : List MStr := dedupSeen l []

/-- Parse every shard header, failing with the first failing shard (the
rejection of the joined parallel reads). -/
def parseAllShards (parseShard : MStr → Except ShardError ShardHeader) :
    List MStr → Except ShardError (List (MStr × ShardHeader))
  | [] => .ok []
  | s :: rest =>
    match parseShard s with
    | .error e => .error e
    | .ok h =>
      match parseAllShards parseShard rest with
      | .error e => .error e
      | .ok hs => .ok ((s, h) :: hs)

/-- Resolve every weight_map entry against its parsed shard header
(loadShardedModel lines 73-90). -/
def resolveWeightMap (shardHeaders : List (MStr × ShardHeader)) :
    List (MStr × MStr) → List (MStr × ShardedTensorInfo) →
    Except ShardError (List (MStr × ShardedTensorInfo))
  | [], acc => .ok acc
  | (tensorName, shardFile) :: rest, acc =>
    match alookup shardHeaders shardFile with
    | none => .error (.shardNotParsed shardFile)
    | some header =>
      match alookup header.tensors tensorName with
      | none => .error (.tensorNotInShard tensorName shardFile)
      | some info =>
        resolveWeightMap shardHeaders rest
          (aset acc tensorName ⟨info.dtype, info.shape, info.dataOffsets, shardFile⟩)

/-- R103 loadShardedModel, from the point where an index file has been
found and parsed (the single-file fallback and the file reads are
abstracted; fileExists models fs.access and parseShard models the
parseHeader call on one shard).  Verifies every referenced shard
exists, collecting all missing names into one error; then parses all
shard headers, merges metadata, and resolves every weight_map entry. -/
def loadShardedFromIndex (index : ShardIndex) (fileExists : MStr → Bool)
    (parseShard : MStr → Except ShardError ShardHeader) :
    Except ShardError UnifiedTensorMap :=
  match index.weight_map with
  | none => .error .missingWeightMap
  | some wm =>
    let shardFiles := dedupKeepFirst (wm.map Prod.snd)
    let missingShards := shardFiles.filter (fun s => fileExists s = false)
    if missingShards ≠ [] then
      .error (.missingShardFiles missingShards)
    else
      match parseAllShards parseShard shardFiles with
      | .error e => .error e
      | .ok shardHeaders =>
        let shardHeaderLengths := shardHeaders.foldl
          (fun m sh => aset m sh.1 sh.2.headerLength) []
        let metadata0 := (index.metadata.getD [])
        let metadata := shardHeaders.foldl
          (fun m sh => sh.2.metadata.foldl (fun m2 kv => aset m2 kv.1 kv.2) m) metadata0
        match resolveWeightMap shardHeaders wm [] with
        | .error e => .error e
        | .ok tensors => .ok ⟨metadata, tensors, shardHeaderLengths⟩

/-- Tensor info as consumed by the LoRA detector: only the shape field
is read. -/
structure LoraTensorInfo where
  shape : List Int
  deriving DecidableEq

/-- A detected LoRA adapter pair, from the current interface
LoraAdapterPair (the lora types file). -/
structure LoraAdapterPair where
  baseTensorName : MStr
  adapterName : MStr
  loraAName : MStr
  loraBName : MStr
  rank : Option Int
  alpha : Option Int
  aShape : List Int
  bShape : List Int
  deriving DecidableEq

/-- Adapter config as consumed by detectLoraAdapters: the r and
lora_alpha fields; none models a null or absent field (both trigger the
nullish fallback). -/
structure AdapterConfigRA where
  r : Option Int
  lora_alpha : Option Int

/-- Split a JS string into dot-separated segments, as
String.prototype.split with separator "." (empty pieces kept, the empty
string splitting to one empty piece). -/
def splitOnDot : MStr → List MStr
  | [] => [[]]
  | c :: rest =>
    if c = '.' then [] :: splitOnDot rest
    else
      match splitOnDot rest with
      | s :: ss => (c :: s) :: ss
      | [] => [[c]]

/-- Join segments with dots, inverse of splitOnDot. -/
def joinDots : List MStr → MStr
  | [] => []
  | [s] => s
  | s :: rest => s ++ '.' :: joinDots rest

/-- Greedy match of the anchored LoRA tensor-name pattern, capturing
(modulePath, side, adapterName): a name matches iff it splits as
modulePath.lora_A.weight, modulePath.lora_B.weight, or with one
dot-free named-adapter segment before weight; the module path must be
nonempty because the leading capture group requires at least one
character; the regex backtracking is greedy, so when both parses apply
the marker closest to the end wins (longest module path).  The side is
true for lora_A.  The adapter name defaults to the literal default. -/
def loraParse (name : MStr) : Option (MStr × Bool × MStr) :=
  let segs := splitOnDot name
  let n := segs.length
  let marker := fun (s : MStr) => s = ("lora_A").toList ∨ s = ("lora_B").toList
  if 3 ≤ n ∧ marker (segs.getD (n - 2) []) ∧ segs.getD (n - 1) [] = ("weight").toList ∧
      joinDots (segs.take (n - 2)) ≠ [] then
    some (joinDots (segs.take (n - 2)), decide (segs.getD (n - 2) [] = ("lora_A").toList),
      ("default").toList)
  else if 4 ≤ n ∧ marker (segs.getD (n - 3) []) ∧ segs.getD (n - 2) [] ≠ [] ∧
      segs.getD (n - 1) [] = ("weight").toList ∧ joinDots (segs.take (n - 3)) ≠ [] then
    some (joinDots (segs.take (n - 3)), decide (segs.getD (n - 3) [] = ("lora_A").toList),
      segs.getD (n - 2) [])
  else none

/-- Match of the anchored base-layer pattern capturing the module path:
name splits as modulePath.base_layer.weight with nonempty module
path. -/
def baseLayerParse (name : MStr) : Option MStr :=
  let segs := splitOnDot name
  let n := segs.length
  if 3 ≤ n ∧ segs.getD (n - 2) [] = ("base_layer").toList ∧
      segs.getD (n - 1) [] = ("weight").toList ∧ joinDots (segs.take (n - 2)) ≠ [] then
    some (joinDots (segs.take (n - 2)))
  else none

/-- The literal separator the detector uses to join the grouping key. -/
def sepPP : MStr := ['|', '|']

/-- Split on the two-character separator above, as
String.prototype.split with a multi-character separator: leftmost
non-overlapping occurrences. -/
def splitOnPP : MStr → List MStr
  | [] => [[]]
  | [c] => [[c]]
  | c1 :: c2 :: rest =>
    if c1 = '|' ∧ c2 = '|' then [] :: splitOnPP rest
    else
      match splitOnPP (c2 :: rest) with
      | s :: ss => (c1 :: s) :: ss
      | [] => [[c1]]

/-- One grouping bucket of the detector: the A-side and B-side tensors
seen so far for a (modulePath, adapterName) key. -/
structure LoraEntry where
  a : Option (MStr × LoraTensorInfo)
  b : Option (MStr × LoraTensorInfo)

/-- The collection loop of detectLoraAdapters (lines 30-52): group the
LoRA-pattern tensors by the joined modulePath||adapterName key and
record base_layer module paths.  The JS Map and Set preserve insertion
order; the Set may be modelled with duplicates since only membership is
consumed. -/
def collectLora :
    List (MStr × LoraTensorInfo) → List (MStr × LoraEntry) → List MStr →
    (List (MStr × LoraEntry) × List MStr)
  | [], es, bs => (es, bs)
  | (name, info) :: rest, es, bs =>
    match loraParse name with
    | some (m, isA, ad) =>
      let key := m ++ sepPP ++ ad
      let e := (alookup es key).getD ⟨none, none⟩
      let e2 := if isA then { e with a := some (name, info) } else { e with b := some (name, info) }
      collectLora rest (aset es key e2) bs
    | none =>
      match baseLayerParse name with
      | some m => collectLora rest es (bs ++ [m])
      | none => collectLora rest es bs

/-- Shape-based rank inference (inferRank, detector lines 95-102). -/
def inferRank (aShape bShape : List Int) : Option Int :=
  if 2 ≤ aShape.length ∧ 2 ≤ bShape.length ∧ aShape.getD 0 0 = bShape.getD (bShape.length - 1) 0
  then some (aShape.getD 0 0)
  else none

/-- Append a pair to the list at a module key, creating the list when
absent (detector lines 86-89). -/
def apush (m : List (MStr × List LoraAdapterPair)) (k : MStr) (p : LoraAdapterPair) :
    List (MStr × List LoraAdapterPair) :=
  match alookup m k with
  | some l => aset m k (l ++ [p])
  | none => aset m k [p]

/-- The emission loop of detectLoraAdapters (lines 56-90): a bucket
becomes a pair only when both halves are present; the module path and
adapter name are recovered by splitting the joined key on the literal
separator and taking the first two parts. -/
def emitPairs (cfg : Option AdapterConfigRA) (basePaths : List MStr) :
    List (MStr × LoraEntry) → List (MStr × List LoraAdapterPair) →
    List (MStr × List LoraAdapterPair)
  | [], m => m
  | (key, e) :: rest, m =>
    match e.a, e.b with
    | some av, some bv =>
      let parts := splitOnPP key
      let modulePath := parts.getD 0 []
      let adapterName := parts.getD 1 []
      let baseTensorName :=
        if modulePath ∈ basePaths then
          modulePath ++ '.' :: ("base_layer.weight").toList
        else
          let stripped :=
            if (("base_model.model.").toList).isPrefixOf modulePath then
              modulePath.drop (("base_model.model.").toList).length
            else modulePath
          stripped ++ '.' :: ("weight").toList
      let rank :=
        match cfg with
        | some c => match c.r with
          | some v => some v
          | none => inferRank av.2.shape bv.2.shape
        | none => inferRank av.2.shape bv.2.shape
      let alpha :=
        match cfg with
        | some c => c.lora_alpha
        | none => none
      let pair : LoraAdapterPair :=
        ⟨baseTensorName, adapterName, av.1, bv.1, rank, alpha, av.2.shape, bv.2.shape⟩
      emitPairs cfg basePaths rest (apush m modulePath pair)
    | _, _ => emitPairs cfg basePaths rest m

/-- R104 detectLoraAdapters: collect the LoRA-pattern tensors into
buckets, then emit one pair per bucket that has both halves. -/
def detectLoraAdapters (tensors : List (MStr × LoraTensorInfo))
    (cfg : Option AdapterConfigRA) : List (MStr × List LoraAdapterPair) :=
  let collected := collectLora tensors [] []
  emitPairs cfg collected.2 collected.1 []

/-- The nullish-coalescing default used by parseAdapterConfig: a null or
absent property falls back to the default. -/
def nullishDefault (v : Option Json) (d : Json) : Json :=
  match v with
  | some .null => d
  | some other => other
  | none => d

/-- parseAdapterConfig, from the point where the side file has been
read and parsed into a JSON object (a missing or unparsable file
returns null upstream): the object literal evaluates the four
defaulted properties first and then spreads the parsed config over
them, so every key present in the file wins. -/
def parseAdapterConfigObj (entries : List (MStr × Json)) : List (MStr × Json) :=
  entries.foldl (fun o kv => aset o kv.1 kv.2)
    [(("r").toList, nullishDefault (alookup entries (("r").toList)) (.num 0)),
     (("lora_alpha").toList, nullishDefault (alookup entries (("lora_alpha").toList)) (.num 0)),
     (("target_modules").toList,
       nullishDefault (alookup entries (("target_modules").toList)) (.arr [])),
     (("lora_dropout").toList, nullishDefault (alookup entries (("lora_dropout").toList)) (.num 0))]

/-- One undo-history snapshot, from the SurgeryState interface. -/
structure SurgeryState where
  tensors : List (MStr × ShardedTensorInfo)
  metadata : List (MStr × MStr)
  shardHeaderLengths : List (MStr × Nat)

/-- The undo/redo session, from class SurgerySession: a list of
snapshots and a cursor. -/
structure SurgerySession where
  states : List SurgeryState
  currentIndex : Nat

/-- The session constructor: one initial snapshot, cursor zero. -/
def newSession (initial : UnifiedTensorMap) : SurgerySession :=
  { states := [⟨initial.tensors, initial.metadata, initial.shardHeaderLengths⟩],
    currentIndex := 0 }

/-- Reads the snapshot under the cursor (this.states[this.currentIndex];
out-of-range access, which cannot occur for sessions built by the
constructor and the operations, falls back to an empty state). -/
def currentState (s : SurgerySession) : SurgeryState :=
  (s.states.get? s.currentIndex).getD ⟨[], [], []⟩

/-- SurgerySession.undo: move the cursor back one position unless
already at the start, returning whether it moved. -/
def sessionUndo (s : SurgerySession) : Bool × SurgerySession :=
  if 0 < s.currentIndex then (true, { s with currentIndex := s.currentIndex - 1 })
  else (false, s)

/-- SurgerySession.redo: move the cursor forward one position unless at
the end, returning whether it moved. -/
def sessionRedo (s : SurgerySession) : Bool × SurgerySession :=
  if s.currentIndex < s.states.length - 1 then
    (true, { s with currentIndex := s.currentIndex + 1 })
  else (false, s)

/-- SurgerySession.pushState (saveSurgery.ts lines 337-341): truncate
every state beyond the cursor, append the new state, advance the
cursor. -/
def pushState (s : SurgerySession) (ns : SurgeryState) : SurgerySession :=
  { states := s.states.take (s.currentIndex + 1) ++ [ns],
    currentIndex := s.currentIndex + 1 }

/-- R401 renameComponent on the tensor map: replace the last dot
segment of targetPath by newName and rewrite every key equal to the
target or extending it past a dot. -/
def renameTensors (tensors : List (MStr × ShardedTensorInfo)) (targetPath newName : MStr) :
    List (MStr × ShardedTensorInfo) :=
  let parts := splitOnDot targetPath
  let newBasePath := joinDots (parts.take (parts.length - 1) ++ [newName])
  let pfx := targetPath ++ ['.']
  let isSingleTensor := (alookup tensors targetPath).isSome
  tensors.foldl
    (fun acc kv =>
      if isSingleTensor ∧ kv.1 = targetPath then
        aset acc newBasePath kv.2
      else if pfx.isPrefixOf kv.1 ∨ kv.1 = targetPath then
        let suffix := if kv.1 = targetPath then [] else kv.1.drop pfx.length
        let newKey := if suffix ≠ [] then newBasePath ++ '.' :: suffix else newBasePath
        aset acc newKey kv.2
      else aset acc kv.1 kv.2)
    []

/-- Substring containment, as String.prototype.includes: the pattern
occurs as a prefix of some suffix. -/
def containsSub (pat : MStr) : MStr → Bool
  | [] => pat.isPrefixOf []
  | c :: rest => pat.isPrefixOf (c :: rest) || containsSub pat rest

/-- The key guard of removeLoraAdapter and renameLoraAdapter
(key.startsWith(targetPath) with key.includes of a marker): the target
is a raw string prefix of the key and the key contains lora_A or
lora_B as a substring anywhere. -/
def loraKeyUnder (targetPath key : MStr) : Bool :=
  targetPath.isPrefixOf key &&
    (containsSub (("lora_A").toList) key || containsSub (("lora_B").toList) key)

/-- R402 removeLoraAdapter on the tensor map (saveSurgery.ts lines
386-402): drop every key that starts with targetPath as a raw string
prefix and contains lora_A or lora_B as a substring; copy every other
entry. -/
def removeLoraTensors (tensors : List (MStr × ShardedTensorInfo)) (targetPath : MStr) :
    List (MStr × ShardedTensorInfo) :=
  tensors.foldl
    (fun acc kv =>
      if loraKeyUnder targetPath kv.1 then acc
      else aset acc kv.1 kv.2)
    []

/-- The first occurrence replacement of String.prototype.replace with a
string pattern: rewrites the leftmost occurrence of pat by repl, or
returns the string unchanged when absent. -/
def replaceFirst (pat repl s : MStr) : MStr :=
  match s with
  | [] => if pat = [] then repl else []
  | c :: rest =>
    if pat.isPrefixOf s then repl ++ s.drop pat.length
    else c :: replaceFirst pat repl rest

/-- R403 renameLoraAdapter on the tensor map: for adapter keys under
the target, replace the first occurrence of the target prefix by the
new prefix. -/
def renameLoraTensors (tensors : List (MStr × ShardedTensorInfo))
    (targetPath newAdapterPrefix : MStr) : List (MStr × ShardedTensorInfo) :=
  tensors.foldl
    (fun acc kv =>
      if loraKeyUnder targetPath kv.1 then
        aset acc (replaceFirst targetPath newAdapterPrefix kv.1) kv.2
      else aset acc kv.1 kv.2)
    []

/-- R404 replaceComponent on the tensor map: delete every key at or
under the target, then copy in every key at or under the target from
the source model. -/
def replaceTensors (tensors : List (MStr × ShardedTensorInfo))
    (targetPath : MStr) (sourceTensors : List (MStr × ShardedTensorInfo)) :
    List (MStr × ShardedTensorInfo) :=
  let pfx := targetPath ++ ['.']
  let kept := tensors.filter (fun kv => ¬ (pfx.isPrefixOf kv.1 ∨ kv.1 = targetPath))
  sourceTensors.foldl
    (fun acc kv =>
      if pfx.isPrefixOf kv.1 ∨ kv.1 = targetPath then aset acc kv.1 kv.2 else acc)
    kept

/-- The mutating operations of the session. -/
inductive SurgeryOp where
  | renameComponent (targetPath newName : MStr)
  | removeLoraAdapter (targetPath : MStr)
  | renameLoraAdapter (targetPath newAdapterPrefix : MStr)
  | replaceComponent (targetPath : MStr)
      (sourceTensors : List (MStr × ShardedTensorInfo))
      (sourceHeaders : List (MStr × Nat))
  | removeTensor (targetPath : MStr)

/-- The snapshot each mutating operation computes from the current
state before pushing it. -/
def computeNewState (s : SurgerySession) (op : SurgeryOp) : SurgeryState :=
  let cur := currentState s
  match op with
  | .renameComponent t n =>
    ⟨renameTensors cur.tensors t n, cur.metadata, cur.shardHeaderLengths⟩
  | .removeLoraAdapter t =>
    ⟨removeLoraTensors cur.tensors t, cur.metadata, cur.shardHeaderLengths⟩
  | .renameLoraAdapter t n =>
    ⟨renameLoraTensors cur.tensors t n, cur.metadata, cur.shardHeaderLengths⟩
  | .replaceComponent t src hdrs =>
    ⟨replaceTensors cur.tensors t src, cur.metadata,
      hdrs.foldl (fun m kv => aset m kv.1 kv.2) cur.shardHeaderLengths⟩
  | .removeTensor t =>
    ⟨cur.tensors.foldl
      (fun acc kv =>
        if kv.1 = t ∨ (t ++ ['.']).isPrefixOf kv.1 then acc else aset acc kv.1 kv.2)
      [], cur.metadata, cur.shardHeaderLengths⟩

/-- Apply one mutating operation: compute the new snapshot from the
current state and push it. -/
def applyOp (s : SurgerySession) (op : SurgeryOp) : SurgerySession :=
  pushState s (computeNewState s op)

/-- Node kinds of the architecture tree, from type NodeType. -/
inductive NodeType where
  | root
  | block
  | component
  | parameter
  deriving DecidableEq

/-- Tensor info carried by a parameter leaf: dtype and shape. -/
structure TreeTensorInfo where
  dtype : MStr
  shape : List Int
  deriving DecidableEq

/-- Architecture tree node, from interface ArchitectureNode of the
current tree builder: name, dot-joined full path, kind, numeric block
index for purely numeric segments, tensor info on parameter leaves, the
first-seen insertion index, attached adapters keyed by adapter name,
and the ordered children. -/
inductive ATree where
  | node (name : MStr) (fullPath : MStr) (type : NodeType)
      (blockIndex : Option Nat) (tensorInfo : Option TreeTensorInfo)
      (insertionIndex : Option Nat)
      (adapters : List (MStr × LoraAdapterPair))
      (children : List ATree)

/-- Name accessor. -/
def ATree.name : ATree → MStr
  | .node n _ _ _ _ _ _ _ => n

/-- Full-path accessor. -/
def ATree.fullPath : ATree → MStr
  | .node _ f _ _ _ _ _ _ => f

/-- Kind accessor. -/
def ATree.type : ATree → NodeType
  | .node _ _ t _ _ _ _ _ => t

/-- Block-index accessor. -/
def ATree.blockIndex : ATree → Option Nat
  | .node _ _ _ b _ _ _ _ => b

/-- Insertion-index accessor. -/
def ATree.insertionIndex : ATree → Option Nat
  | .node _ _ _ _ _ i _ _ => i

/-- Children accessor. -/
def ATree.children : ATree → List ATree
  | .node _ _ _ _ _ _ _ c => c

/-- Purely-numeric segment test, the regex of digits only applied by
isNumericSegment. -/
def isNumericSegment (seg : MStr) : Bool :=
  seg ≠ [] ∧ seg.all Char.isDigit

/-- parseInt in base ten on a purely numeric segment. -/
def parseDigits (seg : MStr) : Nat :=
  seg.foldl (fun n c => n * 10 + (c.toNat - 48)) 0

/-- classifyNodeType of the tree builder: numeric segments are blocks,
all other intermediate segments are components. -/
def classifyNodeType (seg : MStr) : NodeType :=
  if isNumericSegment seg then .block else .component

/-- The unanchored exclusion regex of the tree builder, testing whether
a name ends in a dot, a lora_A or lora_B segment, an optional dot-free
adapter segment, and a weight segment.  Expressed over the dot
segmentation of the name: the pattern requires a literal dot right
before the marker, so the marker and what follows are whole segments. -/
def loraPatternTest (name : MStr) : Bool :=
  let segs := splitOnDot name
  let n := segs.length
  let marker := fun (s : MStr) => s = ("lora_A").toList ∨ s = ("lora_B").toList
  decide ((3 ≤ n ∧ marker (segs.getD (n - 2) []) ∧ segs.getD (n - 1) [] = ("weight").toList) ∨
    (4 ≤ n ∧ marker (segs.getD (n - 3) []) ∧ segs.getD (n - 2) [] ≠ [] ∧
      segs.getD (n - 1) [] = ("weight").toList))

/-- Walk the children list for a segment: apply the continuation to the
first child with that name, or create the node, recurse into it, and
push it at the end (the find-or-create step of insertTensor). -/
def updateFirstOrAppend (seg : MStr) (mkNew : Unit → ATree) (f : ATree → ATree) :
    List ATree → List ATree
  | [] => [f (mkNew ())]
  | c :: cs =>
    if c.name = seg then f c :: cs else c :: updateFirstOrAppend seg mkNew f cs

/-- insertTensor of the tree builder: walk and create intermediate
nodes for every segment except the last, which becomes a parameter leaf
pushed at the end of its parent. done holds the segments already
consumed, so the full path of the node being handled is the dots-join
of done plus the current segment.  Every node created by this call
records the same per-tensor insertion counter. -/
def insertSegs (info : TreeTensorInfo) (ctr : Nat) :
    List MStr → List MStr → ATree → ATree
  | _, [], t => t
  | done, [seg], t =>
    match t with
    | .node n f ty b i ins ad cs =>
      .node n f ty b i ins ad
        (cs ++ [.node seg (joinDots (done ++ [seg])) .parameter none (some info) (some ctr) [] []])
  | done, seg :: s1 :: rest, t =>
    match t with
    | .node n f ty b i ins ad cs =>
      .node n f ty b i ins ad
        (updateFirstOrAppend seg
          (fun _ =>
            let nt := classifyNodeType seg
            .node seg (joinDots (done ++ [seg])) nt
              (if nt = .block ∧ isNumericSegment seg then some (parseDigits seg) else none)
              none (some ctr) [] [])
          (fun c => insertSegs info ctr (done ++ [seg]) (s1 :: rest) c) cs)

/-- Insert one tensor by its dot-split name (insertTensor entry). -/
def insertTensor (t : ATree) (name : MStr) (info : TreeTensorInfo) (ctr : Nat) : ATree :=
  insertSegs info ctr [] (splitOnDot name) t

/-- The tensor insertion loop of buildArchitectureTree: skip excluded
names, incrementing the shared counter once per inserted tensor. -/
def insertAll (excluded : MStr → Bool) :
    List (MStr × TreeTensorInfo) → ATree → Nat → ATree
  | [], t, _ => t
  | (n, i) :: rest, t, ctr =>
    if excluded n then insertAll excluded rest t ctr
    else insertAll excluded rest (insertTensor t n i ctr) (ctr + 1)

/-- All LoRA tensor names named by the adapter map: every loraAName and
loraBName of every pair of every module entry (the set built by the
tree builder before insertion). -/
def collectLoraNames (loraMap : List (MStr × List LoraAdapterPair)) : List MStr :=
  ((loraMap.map Prod.snd).map (fun ps => ps.map (fun p => [p.loraAName, p.loraBName]))).flatten.flatten

mutual
/-- attachLoraAdapters: walk the tree by module-path segments; when
every segment resolves, record each pair in the adapters map keyed by
its adapter name; a missing segment leaves the tree unchanged. -/
def attachAt : ATree → List MStr → List LoraAdapterPair → ATree
  | t, [], pairs =>
    match t with
    | .node n f ty b i ins ad cs =>
      .node n f ty b i ins (pairs.foldl (fun m p => aset m p.adapterName p) ad) cs
  | t, seg :: rest, pairs =>
    match t with
    | .node n f ty b i ins ad cs =>
      .node n f ty b i ins ad (attachForest seg rest pairs cs)

/-- Walk into the first child with the segment name, if any. -/
def attachForest (seg : MStr) (rest : List MStr) (pairs : List LoraAdapterPair) :
    List ATree → List ATree
  | [] => []
  | c :: cs =>
    if c.name = seg then attachAt c rest pairs :: cs
    else c :: attachForest seg rest pairs cs
end

/-- The child comparator of sortTree (the current tree builder): block
nodes sort by block index and ahead of named nodes; named nodes sort by
first-seen insertion index (never alphabetically). -/
def nodeCmp (a b : ATree) : Int :=
  match a.blockIndex, b.blockIndex with
  | some ai, some bi => (ai : Int) - (bi : Int)
  | some _, none => -1
  | none, some _ => 1
  | none, none =>
    ((a.insertionIndex.getD 0 : Int)) - ((b.insertionIndex.getD 0 : Int))

/-- The sort relation of sortTree: the comparator reports at most
zero. -/
def nodeLe (a b : ATree) : Prop := nodeCmp a b ≤ 0

instance : DecidableRel nodeLe := fun a b => inferInstanceAs (Decidable (nodeCmp a b ≤ 0))

mutual
/-- sortTree: sort every children list by the comparator and recurse.
The source sorts a children array in place and then recurses into the
(unchanged) children; mapping first and sorting after yields the same
tree because the recursion does not touch the fields the comparator
reads.  Array.prototype.sort is stable, matching insertion sort. -/
def sortTree : ATree → ATree
  | .node n f ty b i ins ad cs =>
    .node n f ty b i ins ad
      (List.insertionSort nodeLe (sortForest cs))

/-- sortTree mapped over a children list. -/
def sortForest : List ATree → List ATree
  | [] => []
  | c :: cs => sortTree c :: sortForest cs
end

/-- R105 buildArchitectureTree, current version: exclude the LoRA
tensor names (from the adapter map and by the name pattern), insert the
remaining tensors with a shared first-seen counter, attach the adapter
pairs at their module paths, and sort every children list. -/
def buildArchitectureTree (tensors : List (MStr × TreeTensorInfo))
    (loraMap : List (MStr × List LoraAdapterPair)) : ATree :=
  let root : ATree := .node (("model").toList) [] .root none none none [] []
  let loraTensorNames := collectLoraNames loraMap
  let excluded := fun n => decide (n ∈ loraTensorNames) || loraPatternTest n
  let t1 := insertAll excluded tensors root 0
  let t2 := loraMap.foldl (fun t kv => attachAt t (splitOnDot kv.1) kv.2) t1
  sortTree t2

/-! Helper lemmas about the association-list object model. -/

theorem alookup_aset_self {α : Type} (l : List (MStr × α)) (k : MStr) (v : α) :
    alookup (aset l k v) k = some v := by
  induction l with
  | nil => simp [aset, alookup]
  | cons hd tl ih =>
    by_cases h : hd.1 = k
    · simp [aset, h, alookup]
    · simp [aset, h, alookup, ih]

theorem alookup_aset_ne {α : Type} (l : List (MStr × α)) (k k0 : MStr) (v : α)
    (h : k0 ≠ k) : alookup (aset l k v) k0 = alookup l k0 := by
  have hk0 : ¬ k = k0 := fun he => h he.symm
  induction l with
  | nil => simp [aset, alookup, hk0]
  | cons hd tl ih =>
    by_cases hh : hd.1 = k
    · subst hh
      simp [aset, alookup, hk0]
    · simp only [aset, hh, if_false, alookup]
      by_cases hk : hd.1 = k0 <;> simp [hk, ih]

theorem aset_eq_append {α : Type} (l : List (MStr × α)) (k : MStr) (v : α)
    (h : alookup l k = none) : aset l k v = l ++ [(k, v)] := by
  induction l with
  | nil => simp [aset]
  | cons hd tl ih =>
    by_cases hh : hd.1 = k
    · simp [alookup, hh] at h
    · simp only [alookup, hh, if_false] at h
      simp [aset, hh, ih h]

theorem alookup_append {α : Type} (l1 l2 : List (MStr × α)) (k : MStr) :
    alookup (l1 ++ l2) k =
      match alookup l1 k with
      | some v => some v
      | none => alookup l2 k := by
  induction l1 with
  | nil => simp [alookup]
  | cons hd tl ih =>
    by_cases hh : hd.1 = k <;> simp [alookup, hh, ih]

theorem alookup_eq_none_of_not_mem {α : Type} (l : List (MStr × α)) (k : MStr)
    (h : k ∉ l.map Prod.fst) : alookup l k = none := by
  induction l with
  | nil => rfl
  | cons hd tl ih =>
    simp only [List.map_cons, List.mem_cons] at h
    push_neg at h
    have hne : ¬ hd.1 = k := fun he => h.1 he.symm
    simp [alookup, hne, ih h.2]

theorem alookup_isSome_of_mem {α : Type} (l : List (MStr × α)) (k : MStr) (v : α)
    (h : (k, v) ∈ l) : (alookup l k).isSome := by
  induction l with
  | nil => simp at h
  | cons hd tl ih =>
    rcases List.mem_cons.mp h with h1 | h2
    · rw [← h1]
      simp [alookup]
    · by_cases hh : hd.1 = k <;> simp [alookup, hh, ih h2]

theorem alookup_eq_some_of_mem_nodup {α : Type} (l : List (MStr × α)) (k : MStr) (v : α)
    (hnd : (l.map Prod.fst).Nodup) (h : (k, v) ∈ l) : alookup l k = some v := by
  induction l with
  | nil => simp at h
  | cons hd tl ih =>
    simp only [List.map_cons, List.nodup_cons] at hnd
    rcases List.mem_cons.mp h with h1 | h2
    · subst h1; simp [alookup]
    · have : hd.1 ≠ k := by
        intro he
        exact hnd.1 (he ▸ (List.mem_map.mpr ⟨(k, v), h2, rfl⟩))
      simp [alookup, this, ih hnd.2 h2]

theorem mem_of_alookup_eq_some {α : Type} (l : List (MStr × α)) (k : MStr) (v : α)
    (h : alookup l k = some v) : (k, v) ∈ l := by
  induction l with
  | nil => simp [alookup] at h
  | cons hd tl ih =>
    by_cases hh : hd.1 = k
    · simp only [alookup, hh, if_true, Option.some.injEq] at h
      have heq : hd = (k, v) := by
        cases hd with
        | mk a b =>
          simp only at hh h
          rw [hh, h]
      rw [heq]
      exact List.mem_cons_self _ _
    · simp only [alookup, hh, if_false] at h
      exact List.mem_cons_of_mem _ (ih h)

/-- C8 part two as a free-standing fact: redo immediately after any
push reports no movement, because the push truncates the future and
leaves the cursor at the last state. -/
theorem sessionRedo_after_pushState (s : SurgerySession) (ns : SurgeryState) :
    sessionRedo (pushState s ns) = (false, pushState s ns) := by
  unfold sessionRedo pushState
  simp only [List.length_append, List.length_take, List.length_cons, List.length_nil]
  have h : ¬ (s.currentIndex + 1 < min (s.currentIndex + 1) s.states.length + (0 + 1) - 1) := by
    omega
  simp [h]

/-- C8: every mutating operation truncates the states beyond the cursor
before appending the new state and advancing the cursor; consequently,
after an undo followed by any mutating operation, redo returns false
and leaves the session unchanged (the cursor does not move). -/
theorem C8_undo_branch_truncation :
    (∀ (s : SurgerySession) (op : SurgeryOp),
      (applyOp s op).states =
        s.states.take (s.currentIndex + 1) ++ [computeNewState s op] ∧
      (applyOp s op).currentIndex = s.currentIndex + 1) ∧
    (∀ (s : SurgerySession) (op : SurgeryOp),
      sessionRedo (applyOp (sessionUndo s).2 op) =
        (false, applyOp (sessionUndo s).2 op)) := by
  constructor
  · intro s op
    exact ⟨rfl, rfl⟩
  · intro s op
    exact sessionRedo_after_pushState _ _

/-- A skip-or-copy loop over unique keys equals a filter appended to
the accumulator. -/
theorem foldl_remove_eq_filter {α : Type} (p : MStr → Bool) (l : List (MStr × α)) :
    ∀ acc : List (MStr × α),
    (∀ kv ∈ l, alookup acc kv.1 = none) → (l.map Prod.fst).Nodup →
    l.foldl (fun acc kv => if p kv.1 then acc else aset acc kv.1 kv.2) acc =
      acc ++ l.filter (fun kv => !(p kv.1)) := by
  induction l with
  | nil => intro acc _ _; simp
  | cons hd tl ih =>
    intro acc hfresh hnd
    simp only [List.map_cons, List.nodup_cons] at hnd
    by_cases hp : p hd.1
    · simp only [List.foldl_cons, List.filter_cons]
      rw [if_pos hp, ih acc (fun kv hkv => hfresh kv (List.mem_cons_of_mem _ hkv)) hnd.2]
      simp [hp]
    · simp only [List.foldl_cons, List.filter_cons]
      rw [if_neg hp, aset_eq_append _ _ _ (hfresh hd (List.mem_cons_self _ _))]
      rw [ih (acc ++ [(hd.1, hd.2)])
        (fun kv hkv => by
          rw [alookup_append]
          have h1 : alookup acc kv.1 = none := hfresh kv (List.mem_cons_of_mem _ hkv)
          have h2 : ¬ hd.1 = kv.1 := by
            intro he
            exact hnd.1 (he ▸ (List.mem_map.mpr ⟨kv, hkv, rfl⟩))
          simp [h1, alookup, h2])
        hnd.2]
      simp [hp, List.append_assoc]
  
/-- Looking up in a key-filtered list: a filtered-out key is gone, any
other key resolves as before. -/
theorem alookup_filter_key {α : Type} (p : MStr → Bool) (l : List (MStr × α)) (k : MStr) :
    alookup (l.filter (fun kv => !(p kv.1))) k =
      if p k then none else alookup l k := by
  induction l with
  | nil => simp [alookup]
  | cons hd tl ih =>
    by_cases hp : p hd.1
    · by_cases hk : hd.1 = k
      · subst hk
        simp [List.filter_cons, hp, ih, alookup]
      · simp [List.filter_cons, hp, ih, alookup, hk]
    · by_cases hk : hd.1 = k
      · subst hk
        simp [List.filter_cons, hp, alookup]
      · simp [List.filter_cons, hp, alookup, hk, ih]

/-- C9 amended: removeLoraAdapter deletes exactly the keys that have
targetPath as a raw string prefix and contain lora_A or lora_B as a
substring; every other key keeps its record.  (The deletion condition
is a plain string prefix, not a dot-boundary path test.) -/
theorem C9_remove_lora_frame (tensors : List (MStr × ShardedTensorInfo))
    (targetPath : MStr) (hnd : (tensors.map Prod.fst).Nodup) (key : MStr) :
    alookup (removeLoraTensors tensors targetPath) key =
      if loraKeyUnder targetPath key then none else alookup tensors key := by
  unfold removeLoraTensors
  rw [foldl_remove_eq_filter (fun k => loraKeyUnder targetPath k) tensors []
    (fun kv _ => rfl) hnd]
  rw [List.nil_append]
  exact alookup_filter_key _ _ _

/-- The concrete tensor map of the C9 counterexample: a sibling whose
name merely extends the target path as a string. -/
def c9Tensors : List (MStr × ShardedTensorInfo) :=
  [((("a.bc.lora_A.weight").toList),
    ⟨(("F32").toList), [], (0, 0), (("model.safetensors").toList)⟩)]

/-- C9 counterexample: with target a.b, the key a.bc.lora_A.weight is
not under the target at a dot boundary (claim: preserved unchanged),
yet removeLoraAdapter deletes it, because the code tests a raw string
prefix. -/
theorem C9_counterexample :
    (alookup (removeLoraTensors c9Tensors (("a.b").toList))
      (("a.bc.lora_A.weight").toList)).isNone = true ∧
    (alookup c9Tensors (("a.bc.lora_A.weight").toList)).isSome = true ∧
    (("a.bc.lora_A.weight").toList ≠ ("a.b").toList) ∧
    ((("a.b").toList ++ ['.']).isPrefixOf (("a.bc.lora_A.weight").toList) = false) := by
  refine ⟨by decide, by decide, by decide, by decide⟩

/-- C9 witness: the amended frame property applied at the concrete
counterexample input. -/
theorem C9_witness :
    (c9Tensors.map Prod.fst).Nodup ∧
    alookup (removeLoraTensors c9Tensors (("a.b").toList)) (("a.bc.lora_A.weight").toList) =
      (if loraKeyUnder (("a.b").toList) (("a.bc.lora_A.weight").toList) then none
       else alookup c9Tensors (("a.bc.lora_A.weight").toList)) :=
  ⟨by decide, C9_remove_lora_frame c9Tensors (("a.b").toList) (by decide) _⟩

/-- Spreading an object over a base: a key present in the spread list
(with unique keys) wins; an absent key falls back to the base. -/
theorem alookup_foldl_aset {α : Type} (l : List (MStr × α)) :
    ∀ (base : List (MStr × α)) (k : MStr), (l.map Prod.fst).Nodup →
    alookup (l.foldl (fun o kv => aset o kv.1 kv.2) base) k =
      match alookup l k with
      | some v => some v
      | none => alookup base k := by
  induction l with
  | nil => intro base k _; simp [alookup]
  | cons hd tl ih =>
    intro base k hnd
    simp only [List.map_cons, List.nodup_cons] at hnd
    simp only [List.foldl_cons]
    rw [ih (aset base hd.1 hd.2) k hnd.2]
    by_cases hk : hd.1 = k
    · subst hk
      have htl : alookup tl hd.1 = none := by
        apply alookup_eq_none_of_not_mem
        exact hnd.1
      simp [alookup, htl, alookup_aset_self]
    · have hk2 : k ≠ hd.1 := fun he => hk he.symm
      simp [alookup, hk, alookup_aset_ne _ _ _ _ hk2]

/-- C10: in parseAdapterConfig, every key present in the parsed config
object keeps exactly the value from the file (a null value included),
and each of the four defaulted keys receives its default only when
absent from the file. -/
theorem C10_config_defaults (entries : List (MStr × Json))
    (hnd : (entries.map Prod.fst).Nodup) :
    (∀ k v, alookup entries k = some v →
      alookup (parseAdapterConfigObj entries) k = some v) ∧
    (alookup entries (("r").toList) = none →
      alookup (parseAdapterConfigObj entries) (("r").toList) = some (.num 0)) ∧
    (alookup entries (("lora_alpha").toList) = none →
      alookup (parseAdapterConfigObj entries) (("lora_alpha").toList) = some (.num 0)) ∧
    (alookup entries (("target_modules").toList) = none →
      alookup (parseAdapterConfigObj entries) (("target_modules").toList) = some (.arr [])) ∧
    (alookup entries (("lora_dropout").toList) = none →
      alookup (parseAdapterConfigObj entries) (("lora_dropout").toList) = some (.num 0)) := by
  unfold parseAdapterConfigObj
  refine ⟨?_, ?_, ?_, ?_, ?_⟩
  · intro k v hv
    rw [alookup_foldl_aset entries _ k hnd, hv]
  · intro h
    rw [alookup_foldl_aset entries _ _ hnd, h]
    simp [alookup, nullishDefault, h]
  · intro h
    rw [alookup_foldl_aset entries _ _ hnd, h]
    simp [alookup, nullishDefault, h]
  · intro h
    rw [alookup_foldl_aset entries _ _ hnd, h]
    simp [alookup, nullishDefault, h]
  · intro h
    rw [alookup_foldl_aset entries _ _ hnd, h]
    simp [alookup, nullishDefault, h]

/-- The concrete adapter-config object of the C10 witness: r explicitly
null, lora_alpha absent. -/
def c10Entries : List (MStr × Json) := [((("r").toList), Json.null)]

/-- C10 witness: on a config with r explicitly null and lora_alpha
absent, the parsed object returns null for r (not the default) and the
default zero for lora_alpha. -/
theorem C10_witness :
    alookup (parseAdapterConfigObj c10Entries) (("r").toList) = some Json.null ∧
    alookup (parseAdapterConfigObj c10Entries) (("lora_alpha").toList) = some (.num 0) :=
  ⟨(C10_config_defaults c10Entries (by decide)).1 (("r").toList) Json.null rfl,
   (C10_config_defaults c10Entries (by decide)).2.2.1 rfl⟩

/-- Every list element not yet seen survives the set-style
deduplication. -/
theorem mem_dedupSeen (l : List MStr) :
    ∀ (seen : List MStr) (x : MStr), x ∈ l → x ∉ seen → x ∈ dedupSeen l seen := by
  induction l with
  | nil => intro seen x hx _; simp at hx
  | cons hd tl ih =>
    intro seen x hx hns
    rcases List.mem_cons.mp hx with h1 | h2
    · subst h1
      by_cases hh : x ∈ seen
      · exact absurd hh hns
      · simp [dedupSeen, hh]
    · by_cases hh : hd ∈ seen
      · simp only [dedupSeen, hh, if_true]
        exact ih seen x h2 hns
      · simp only [dedupSeen, hh, if_false]
        by_cases hxh : x = hd
        · subst hxh
          exact List.mem_cons_self _ _
        · refine List.mem_cons_of_mem _ (ih (seen ++ [hd]) x h2 ?_)
          simp [hns, hxh]

/-- Every referenced shard value appears in the deduplicated list. -/
theorem mem_dedupKeepFirst (l : List MStr) (x : MStr) (hx : x ∈ l) :
    x ∈ dedupKeepFirst l :=
  mem_dedupSeen l [] x hx (by simp)

/-- C6: when an index file is present and at least one shard referenced
by weight_map does not exist, loadShardedModel fails with a single
MissingShardFiles error whose list is exactly the (deduplicated)
missing shard names in reference order, containing every missing shard
file, not just the first. -/
theorem C6_missing_shards (index : ShardIndex) (fileExists : MStr → Bool)
    (parseShard : MStr → Except ShardError ShardHeader)
    (wm : List (MStr × MStr)) (hwm : index.weight_map = some wm)
    (hmiss : ∃ s ∈ wm.map Prod.snd, fileExists s = false) :
    ∃ missing,
      loadShardedFromIndex index fileExists parseShard =
        .error (.missingShardFiles missing) ∧
      missing = (dedupKeepFirst (wm.map Prod.snd)).filter (fun s => fileExists s = false) ∧
      ∀ s ∈ wm.map Prod.snd, fileExists s = false → s ∈ missing := by
  obtain ⟨s0, hs0, hs0f⟩ := hmiss
  have hmem :
      s0 ∈ (dedupKeepFirst (wm.map Prod.snd)).filter (fun s => fileExists s = false) := by
    rw [List.mem_filter]
    exact ⟨mem_dedupKeepFirst _ _ hs0, by simp [hs0f]⟩
  have hne :
      (dedupKeepFirst (wm.map Prod.snd)).filter (fun s => fileExists s = false) ≠ [] := by
    intro h
    rw [h] at hmem
    simp at hmem
  refine ⟨_, ?_, rfl, ?_⟩
  · unfold loadShardedFromIndex
    rw [hwm]
    exact if_pos hne
  · intro s hs hsf
    rw [List.mem_filter]
    exact ⟨mem_dedupKeepFirst _ _ hs, by simp [hsf]⟩

/-- The concrete index of the C6 witness: two tensors across two
shards, the second missing on disk. -/
def c6Index : ShardIndex :=
  { metadata := none,
    weight_map := some
      [((("t1").toList), (("s1.safetensors").toList)),
       ((("t2").toList), (("s2.safetensors").toList))] }

/-- C6 witness: the aggregated-missing-shards theorem applied to the
concrete two-shard index with one shard absent. -/
theorem C6_witness :
    ∃ missing,
      loadShardedFromIndex c6Index (fun s => decide (s = ("s1.safetensors").toList))
        (fun _ => .error .invalidIndexJson) = .error (.missingShardFiles missing) ∧
      missing = (dedupKeepFirst ((c6Index.weight_map.getD []).map Prod.snd)).filter
        (fun s => (decide (s = ("s1.safetensors").toList) : Bool) = false) ∧
      ∀ s ∈ (c6Index.weight_map.getD []).map Prod.snd,
        (decide (s = ("s1.safetensors").toList) : Bool) = false → s ∈ missing :=
  C6_missing_shards c6Index _ _ _ rfl
    ⟨("s2.safetensors").toList, by decide, by decide⟩

/-- A successful parse validated every non-metadata entry, in
particular its shape field was an array. -/
theorem parseEntries_ok_shape (entries : List (MStr × Json)) :
    ∀ md ts res, parseEntries entries md ts = .ok res →
    ∀ kv ∈ entries, kv.1 ≠ ("__metadata__").toList → shapeCheck kv.2 ≠ none := by
  induction entries with
  | nil => intro md ts res _ kv hkv; simp at hkv
  | cons hd tl ih =>
    intro md ts res hok kv hkv hmeta
    rcases List.mem_cons.mp hkv with h1 | h2
    · rw [h1]
      rw [h1] at hmeta
      rw [show (hd = (hd.1, hd.2)) from rfl] at hok
      simp only [parseEntries] at hok
      rw [if_neg hmeta] at hok
      cases hdt : dtypeCheck hd.2 with
      | none => rw [hdt] at hok; exact Except.noConfusion hok
      | some dt =>
        rw [hdt] at hok
        cases hsh : shapeCheck hd.2 with
        | none => rw [hsh] at hok; exact Except.noConfusion hok
        | some sh => simp [hsh]
    · rw [show (hd = (hd.1, hd.2)) from rfl] at hok
      simp only [parseEntries] at hok
      by_cases hm : hd.1 = ("__metadata__").toList
      · rw [if_pos hm] at hok
        exact ih _ _ _ hok kv h2 hmeta
      · rw [if_neg hm] at hok
        cases hdt : dtypeCheck hd.2 with
        | none => rw [hdt] at hok; exact Except.noConfusion hok
        | some dt =>
          rw [hdt] at hok
          cases hsh : shapeCheck hd.2 with
          | none => rw [hsh] at hok; exact Except.noConfusion hok
          | some sh =>
            rw [hsh] at hok
            cases hof : offsetsCheck hd.2 with
            | none => rw [hof] at hok; exact Except.noConfusion hok
            | some off =>
              rw [hof] at hok
              exact ih _ _ _ hok kv h2 hmeta

/-- When every earlier entry passes its checks, a non-array shape on an
entry with a valid dtype stops the parse with InvalidShape for that
key. -/
theorem parseEntries_invalidShape (pre : List (MStr × Json)) :
    ∀ (k : MStr) (v : Json) (post : List (MStr × Json)) (md : List (MStr × MStr))
      (ts : List (MStr × TensorInfo)),
    (∀ kv ∈ pre, kv.1 = ("__metadata__").toList ∨
      (dtypeCheck kv.2 ≠ none ∧ shapeCheck kv.2 ≠ none ∧ offsetsCheck kv.2 ≠ none)) →
    k ≠ ("__metadata__").toList → dtypeCheck v ≠ none → shapeCheck v = none →
    parseEntries (pre ++ (k, v) :: post) md ts = .error (.invalidShape k) := by
  induction pre with
  | nil =>
    intro k v post md ts _ hmeta hdt hsh
    simp only [List.nil_append, parseEntries]
    rw [if_neg hmeta]
    cases hdt2 : dtypeCheck v with
    | none => exact absurd hdt2 hdt
    | some dt => rw [hsh]
  | cons hd tl ih =>
    intro k v post md ts hpre hmeta hdt hsh
    have hhd := hpre hd (List.mem_cons_self _ _)
    rw [show (hd = (hd.1, hd.2)) from rfl, List.cons_append]
    simp only [parseEntries]
    by_cases hm : hd.1 = ("__metadata__").toList
    · rw [if_pos hm]
      exact ih k v post _ _ (fun kv hkv => hpre kv (List.mem_cons_of_mem _ hkv)) hmeta hdt hsh
    · rw [if_neg hm]
      rcases hhd with hmm | ⟨h1, h2, h3⟩
      · exact absurd hmm hm
      · cases hdt0 : dtypeCheck hd.2 with
        | none => exact absurd hdt0 h1
        | some dt0 =>
          cases hsh0 : shapeCheck hd.2 with
          | none => exact absurd hsh0 h2
          | some sh0 =>
            cases hof0 : offsetsCheck hd.2 with
            | none => exact absurd hof0 h3
            | some of0 =>
              exact ih k v post _ _ (fun kv hkv => hpre kv (List.mem_cons_of_mem _ hkv))
                hmeta hdt hsh

/-- C5 amended: the shape validation of parseHeader checks only that
the shape field is an array (elements are not inspected): a successful
parse implies every non-metadata entry has an array shape, and an
entry whose shape is absent or not an array, when every earlier entry
passes its checks and its own dtype is valid, fails the whole parse
with InvalidShape for that key, leaving no partial result. -/
theorem C5_shape_validation (entries : List (MStr × Json)) :
    (∀ h, parseHeaderJson (.obj entries) = .ok h →
      ∀ kv ∈ entries, kv.1 ≠ ("__metadata__").toList → shapeCheck kv.2 ≠ none) ∧
    (∀ pre k v post, entries = pre ++ (k, v) :: post →
      (∀ kv ∈ pre, kv.1 = ("__metadata__").toList ∨
        (dtypeCheck kv.2 ≠ none ∧ shapeCheck kv.2 ≠ none ∧ offsetsCheck kv.2 ≠ none)) →
      k ≠ ("__metadata__").toList → dtypeCheck v ≠ none → shapeCheck v = none →
      parseHeaderJson (.obj entries) = .error (.invalidShape k)) := by
  constructor
  · intro h hok kv hkv hmeta
    simp only [parseHeaderJson] at hok
    cases hpe : parseEntries entries [] [] with
    | error e => rw [hpe] at hok; exact Except.noConfusion hok
    | ok r => exact parseEntries_ok_shape entries [] [] r hpe kv hkv hmeta
  · intro pre k v post hsplit hpre hmeta hdt hsh
    simp only [parseHeaderJson]
    rw [hsplit, parseEntries_invalidShape pre k v post [] [] hpre hmeta hdt hsh]

/-- The C5 counterexample header: one tensor whose shape is an array
holding a non-integer element (a string). -/
def c5CtrHeader : Json :=
  .obj [((("t").toList),
    .obj [((("dtype").toList), .str (("F32").toList)),
          ((("shape").toList), .arr [.str (("x").toList)]),
          ((("data_offsets").toList), .arr [.num 0, .num 0])])]

/-- The parse result of the C5 counterexample header. -/
def c5CtrParsed : ParsedHeader :=
  ⟨[], [((("t").toList),
    ⟨(("F32").toList), [.str (("x").toList)], (0, 0)⟩)]⟩

/-- C5 counterexample: a shape that is an array containing a
non-integer element does not fail with InvalidShape; the parse
succeeds and stores the raw array. -/
theorem C5_counterexample :
    parseHeaderJson c5CtrHeader = .ok c5CtrParsed ∧
    c5CtrParsed.tensors.map (fun kv => kv.2.shape) = [[Json.str (("x").toList)]] ∧
    ∀ e, parseHeaderJson c5CtrHeader ≠ .error e := by
  refine ⟨rfl, rfl, ?_⟩
  · intro e h
    rw [show parseHeaderJson c5CtrHeader = .ok c5CtrParsed from rfl] at h
    exact Except.noConfusion h

/-- The C5 witness header: one tensor with a valid dtype and no shape
field. -/
def c5WitnessEntries : List (MStr × Json) :=
  [((("t").toList),
    .obj [((("dtype").toList), .str (("F32").toList)),
          ((("data_offsets").toList), .arr [.num 0, .num 0])])]

/-- C5 witness: the amended theorem applied to a concrete header whose
single entry lacks a shape array, yielding InvalidShape. -/
theorem C5_witness :
    parseHeaderJson (.obj c5WitnessEntries) =
      .error (.invalidShape (("t").toList)) :=
  (C5_shape_validation c5WitnessEntries).2 [] (("t").toList) _ [] rfl
    (fun kv hkv => absurd hkv (List.not_mem_nil kv))
    (by decide) (by decide) rfl

/-- Splitting never produces an empty chunk list. -/
theorem splitOnPP_ne_nil (s : MStr) : splitOnPP s ≠ [] := by
  induction s using splitOnPP.induct with
  | case1 => simp [splitOnPP]
  | case2 c => simp [splitOnPP]
  | case3 c1 c2 rest hpp ih => simp [splitOnPP, hpp]
  | case4 c1 c2 rest hpp s ss hs ih =>
    simp only [splitOnPP, hpp, if_false]
    rw [hs]
    simp
  | case5 c1 c2 rest hpp hs ih => exact absurd hs ih

/-- A separator-free string splits to itself. -/
theorem splitOnPP_nosep (s : MStr) (h : '|' ∉ s) : splitOnPP s = [s] := by
  induction s using splitOnPP.induct with
  | case1 => rfl
  | case2 c => rfl
  | case3 c1 c2 rest hpp ih =>
    exact absurd (hpp.1 ▸ List.mem_cons_self _ _) h
  | case4 c1 c2 rest hpp s ss hs ih =>
    simp only [splitOnPP, hpp, if_false]
    rw [hs]
    have h2 : '|' ∉ c2 :: rest := fun hx => h (List.mem_cons_of_mem _ hx)
    rw [hs] at ih
    have := ih h2
    injection this with h3 h4
    rw [h3, h4]
  | case5 c1 c2 rest hpp hs ih => exact absurd hs (splitOnPP_ne_nil _)

/-- Splitting a clean join of module path and adapter name recovers
exactly the two parts. -/
theorem splitOnPP_concat (ad : MStr) (had : '|' ∉ ad) :
    ∀ m : MStr, '|' ∉ m → splitOnPP (m ++ sepPP ++ ad) = [m, ad] := by
  intro m
  induction m with
  | nil =>
    intro _
    show splitOnPP ('|' :: '|' :: ad) = [[], ad]
    simp [splitOnPP, splitOnPP_nosep ad had]
  | cons c m2 ih =>
    intro hm
    have hcne : c ≠ '|' := fun he => hm (he ▸ List.mem_cons_self _ _)
    have hm2 : '|' ∉ m2 := fun hx => hm (List.mem_cons_of_mem _ hx)
    cases m2 with
    | nil =>
      show splitOnPP (c :: '|' :: '|' :: ad) = [[c], ad]
      simp only [splitOnPP]
      rw [if_neg (fun hand => hcne hand.1)]
      simp [splitOnPP_nosep ad had]
    | cons c2 m3 =>
      have hrec : splitOnPP ((c2 :: m3) ++ sepPP ++ ad) = [c2 :: m3, ad] := ih hm2
      show splitOnPP (c :: c2 :: (m3 ++ sepPP ++ ad)) = [c :: c2 :: m3, ad]
      simp only [splitOnPP]
      rw [if_neg (fun hand => hcne hand.1)]
      simp only [List.cons_append] at hrec
      rw [hrec]

/-- Splitting never produces an empty segment list. -/
theorem splitOnDot_ne_nil (s : MStr) : splitOnDot s ≠ [] := by
  induction s using splitOnDot.induct with
  | case1 => simp [splitOnDot]
  | case2 rest ih => simp [splitOnDot]
  | case3 c rest hdot s0 ss hs ih =>
    simp only [splitOnDot, hdot, if_false]
    rw [hs]
    simp
  | case4 c rest hdot hs ih => exact absurd hs ih

/-- Every character of a dot segment occurs in the split string. -/
theorem mem_of_mem_splitOnDot (name : MStr) :
    ∀ s ∈ splitOnDot name, ∀ c ∈ s, c ∈ name := by
  induction name using splitOnDot.induct with
  | case1 =>
    intro s hs c hc
    simp only [splitOnDot, List.mem_singleton] at hs
    subst hs
    simp at hc
  | case2 rest ih =>
    intro s hs c hc
    simp only [splitOnDot, if_true, List.mem_cons] at hs
    rcases hs with h1 | h2
    · subst h1; simp at hc
    · exact List.mem_cons_of_mem _ (ih s h2 c hc)
  | case3 c0 rest hdot s0 ss hs0 ih =>
    intro s hs c hc
    simp only [splitOnDot, hdot, if_false] at hs
    rw [hs0] at hs
    rcases List.mem_cons.mp hs with h1 | h2
    · subst h1
      rcases List.mem_cons.mp hc with h3 | h4
      · subst h3; exact List.mem_cons_self _ _
      · exact List.mem_cons_of_mem _ (ih s0 (hs0 ▸ List.mem_cons_self _ _) c h4)
    · exact List.mem_cons_of_mem _ (ih s (hs0 ▸ List.mem_cons_of_mem _ h2) c hc)
  | case4 c0 rest hdot hs ih => exact absurd hs (splitOnDot_ne_nil _)

/-- Every character of a dot join is a dot or comes from a chunk. -/
theorem mem_of_mem_joinDots (l : List MStr) :
    ∀ c ∈ joinDots l, c = '.' ∨ ∃ s ∈ l, c ∈ s := by
  induction l using joinDots.induct with
  | case1 => intro c hc; simp [joinDots] at hc
  | case2 s =>
    intro c hc
    simp only [joinDots] at hc
    exact Or.inr ⟨s, List.mem_singleton_self _, hc⟩
  | case3 s rest hne ih =>
    intro c hc
    simp only [joinDots, List.mem_append, List.mem_cons] at hc
    rcases hc with h1 | h2 | h3
    · exact Or.inr ⟨s, List.mem_cons_self _ _, h1⟩
    · exact Or.inl h2
    · rcases ih c h3 with h4 | ⟨s0, hs0, hc0⟩
      · exact Or.inl h4
      · exact Or.inr ⟨s0, List.mem_cons_of_mem _ hs0, hc0⟩

/-- The outputs of the LoRA name pattern contain only characters of the
matched name (so a pipe-free name yields pipe-free parts). -/
theorem loraParse_pipe_free (name : MStr) (m : MStr) (sd : Bool) (ad : MStr)
    (hp : loraParse name = some (m, sd, ad)) (hn : '|' ∉ name) :
    '|' ∉ m ∧ '|' ∉ ad := by
  unfold loraParse at hp
  dsimp only at hp
  split_ifs at hp with h1 h2
  · simp only [Option.some.injEq, Prod.mk.injEq] at hp
    obtain ⟨hm, hsd, had⟩ := hp
    constructor
    · intro hmem
      rw [← hm] at hmem
      rcases mem_of_mem_joinDots _ _ hmem with hdot | ⟨s, hsm, hcs⟩
      · exact absurd hdot (by decide)
      · exact hn (mem_of_mem_splitOnDot name s (List.mem_of_mem_take hsm) _ hcs)
    · rw [← had]
      decide
  · simp only [Option.some.injEq, Prod.mk.injEq] at hp
    obtain ⟨hm, hsd, had⟩ := hp
    constructor
    · intro hmem
      rw [← hm] at hmem
      rcases mem_of_mem_joinDots _ _ hmem with hdot | ⟨s, hsm, hcs⟩
      · exact absurd hdot (by decide)
      · exact hn (mem_of_mem_splitOnDot name s (List.mem_of_mem_take hsm) _ hcs)
    · intro hmem
      rw [← had] at hmem
      have hlen : (splitOnDot name).length - 2 < (splitOnDot name).length := by
        omega
      rw [List.getD_eq_getElem (splitOnDot name) [] hlen] at hmem
      exact hn (mem_of_mem_splitOnDot name _ (List.getElem_mem hlen) _ hmem)

/-- Membership in the keys after a property assignment. -/
theorem mem_map_fst_aset {α : Type} (l : List (MStr × α)) (k : MStr) (v : α) (x : MStr) :
    x ∈ (aset l k v).map Prod.fst ↔ x ∈ l.map Prod.fst ∨ x = k := by
  induction l with
  | nil => simp [aset]
  | cons hd tl ih =>
    by_cases hh : hd.1 = k
    · subst hh
      simp only [aset, if_true, List.map_cons, List.mem_cons]
      constructor
      · intro h; rcases h with h | h
        · exact Or.inr h
        · exact Or.inl (Or.inr h)
      · intro h; rcases h with (h | h) | h
        · exact Or.inl h
        · exact Or.inr h
        · exact Or.inl h
    · simp only [aset, hh, if_false, List.map_cons, List.mem_cons, ih]
      tauto

/-- Property assignment keeps the keys unique. -/
theorem aset_fst_nodup {α : Type} (l : List (MStr × α)) (k : MStr) (v : α)
    (hnd : (l.map Prod.fst).Nodup) : ((aset l k v).map Prod.fst).Nodup := by
  induction l with
  | nil => simp [aset]
  | cons hd tl ih =>
    simp only [List.map_cons, List.nodup_cons] at hnd
    by_cases hh : hd.1 = k
    · subst hh
      simp only [aset, if_true, List.map_cons, List.nodup_cons]
      exact hnd
    · simp only [aset, hh, if_false, List.map_cons, List.nodup_cons]
      refine ⟨?_, ih hnd.2⟩
      rw [mem_map_fst_aset]
      intro hcon
      rcases hcon with h | h
      · exact hnd.1 h
      · exact hh h

/-- The grouping keys stay unique through the collection loop. -/
theorem collectLora_fst_nodup :
    ∀ (ts : List (MStr × LoraTensorInfo)) (es : List (MStr × LoraEntry)) (bs : List MStr),
    (es.map Prod.fst).Nodup → (((collectLora ts es bs).1).map Prod.fst).Nodup := by
  intro ts
  induction ts with
  | nil => intro es bs h; exact h
  | cons p rest ih =>
    intro es bs h
    rw [show p = (p.1, p.2) from rfl]
    simp only [collectLora]
    cases hlp : loraParse p.1 with
    | none =>
      cases hbl : baseLayerParse p.1 with
      | none => exact ih es bs h
      | some m => exact ih es _ h
    | some t =>
      exact ih _ bs (aset_fst_nodup _ _ _ h)

/-- The bucket at a key has an A half. -/
def entryHasA (es : List (MStr × LoraEntry)) (key : MStr) : Prop :=
  ∃ e, alookup es key = some e ∧ e.a.isSome = true

/-- The bucket at a key has a B half. -/
def entryHasB (es : List (MStr × LoraEntry)) (key : MStr) : Prop :=
  ∃ e, alookup es key = some e ∧ e.b.isSome = true

/-- After the collection loop, a bucket has an A half exactly when the
accumulator already had one or some tensor parses as the A side of
that joined key. -/
theorem collectLora_hasA :
    ∀ (ts : List (MStr × LoraTensorInfo)) (es : List (MStr × LoraEntry)) (bs : List MStr)
      (key : MStr),
    entryHasA (collectLora ts es bs).1 key ↔
      entryHasA es key ∨
        ∃ p ∈ ts, ∃ m ad, loraParse p.1 = some (m, true, ad) ∧ key = m ++ sepPP ++ ad := by
  intro ts
  induction ts with
  | nil =>
    intro es bs key
    simp only [collectLora]
    constructor
    · exact Or.inl
    · intro h
      rcases h with h | ⟨q, hq, _⟩
      · exact h
      · simp at hq
  | cons p rest ih =>
    intro es bs key
    rw [show p = (p.1, p.2) from rfl]
    simp only [collectLora]
    cases hlp : loraParse p.1 with
    | none =>
      cases hbl : baseLayerParse p.1 with
      | none =>
        rw [ih es bs key]
        simp only [List.mem_cons]
        constructor
        · intro h
          rcases h with h | ⟨q, hq, hrest⟩
          · exact Or.inl h
          · exact Or.inr ⟨q, Or.inr hq, hrest⟩
        · intro h
          rcases h with h | ⟨q, hq, m, ad, hpar, hkey⟩
          · exact Or.inl h
          · rcases hq with hq | hq
            · rw [hq] at hpar
              rw [hlp] at hpar
              exact Option.noConfusion hpar
            · exact Or.inr ⟨q, hq, m, ad, hpar, hkey⟩
      | some m0 =>
        rw [ih es _ key]
        simp only [List.mem_cons]
        constructor
        · intro h
          rcases h with h | ⟨q, hq, hrest⟩
          · exact Or.inl h
          · exact Or.inr ⟨q, Or.inr hq, hrest⟩
        · intro h
          rcases h with h | ⟨q, hq, m, ad, hpar, hkey⟩
          · exact Or.inl h
          · rcases hq with hq | hq
            · rw [hq] at hpar
              rw [hlp] at hpar
              exact Option.noConfusion hpar
            · exact Or.inr ⟨q, hq, m, ad, hpar, hkey⟩
    | some t =>
      obtain ⟨m0, isA, ad0⟩ := t
      rw [ih _ bs key]
      have haux : entryHasA
          (aset es (m0 ++ sepPP ++ ad0)
            (if isA = true then
              { (alookup es (m0 ++ sepPP ++ ad0)).getD ⟨none, none⟩ with a := some (p.1, p.2) }
            else
              { (alookup es (m0 ++ sepPP ++ ad0)).getD ⟨none, none⟩ with b := some (p.1, p.2) }))
          key ↔
          entryHasA es key ∨
            (∃ m ad, loraParse p.1 = some (m, true, ad) ∧ key = m ++ sepPP ++ ad) := by
        by_cases hkey : key = m0 ++ sepPP ++ ad0
        · subst hkey
          unfold entryHasA
          rw [alookup_aset_self]
          cases hA : isA with
          | true =>
            simp only [if_true]
            constructor
            · intro _
              exact Or.inr ⟨m0, ad0, by rw [hlp, hA], rfl⟩
            · intro _
              exact ⟨_, rfl, by simp⟩
          | false =>
            simp only [Bool.false_eq_true, if_false]
            constructor
            · intro ⟨e, he, ha⟩
              injection he with he
              rw [← he] at ha
              simp only at ha
              cases hlook : alookup es (m0 ++ sepPP ++ ad0) with
              | none => rw [hlook] at ha; simp at ha
              | some e0 =>
                rw [hlook] at ha
                simp only [Option.getD_some] at ha
                exact Or.inl ⟨e0, rfl, ha⟩
            · intro h
              rcases h with ⟨e0, he0, ha0⟩ | ⟨m, ad, hpar, hkey2⟩
              · refine ⟨_, rfl, ?_⟩
                rw [he0]
                simpa using ha0
              · rw [hlp] at hpar
                injection hpar with hpar
                injection hpar with h1 hpar
                injection hpar with h2 h3
                exact absurd h2.symm (by simp [hA])
        · unfold entryHasA
          rw [alookup_aset_ne _ _ _ _ hkey]
          constructor
          · intro h
            exact Or.inl h
          · intro h
            rcases h with h | ⟨m, ad, hpar, hkey2⟩
            · exact h
            · rw [hlp] at hpar
              injection hpar with hpar
              injection hpar with h1 hpar
              injection hpar with h2 h3
              rw [hkey2, h1, h3] at hkey
              exact absurd rfl hkey
      rw [haux]
      simp only [List.mem_cons]
      constructor
      · intro h
        rcases h with (h | h) | ⟨q, hq, hrest⟩
        · exact Or.inl h
        · obtain ⟨m, ad, hpar, hkey⟩ := h
          exact Or.inr ⟨p, Or.inl rfl, m, ad, hpar, hkey⟩
        · exact Or.inr ⟨q, Or.inr hq, hrest⟩
      · intro h
        rcases h with h | ⟨q, hq, m, ad, hpar, hkey⟩
        · exact Or.inl (Or.inl h)
        · rcases hq with hq | hq
          · rw [hq] at hpar
            exact Or.inl (Or.inr ⟨m, ad, hpar, hkey⟩)
          · exact Or.inr ⟨q, hq, m, ad, hpar, hkey⟩

/-- After the collection loop, a bucket has a B half exactly when the
accumulator already had one or some tensor parses as the B side of
that joined key. -/
theorem collectLora_hasB :
    ∀ (ts : List (MStr × LoraTensorInfo)) (es : List (MStr × LoraEntry)) (bs : List MStr)
      (key : MStr),
    entryHasB (collectLora ts es bs).1 key ↔
      entryHasB es key ∨
        ∃ p ∈ ts, ∃ m ad, loraParse p.1 = some (m, false, ad) ∧ key = m ++ sepPP ++ ad := by
  intro ts
  induction ts with
  | nil =>
    intro es bs key
    simp only [collectLora]
    constructor
    · exact Or.inl
    · intro h
      rcases h with h | ⟨q, hq, _⟩
      · exact h
      · simp at hq
  | cons p rest ih =>
    intro es bs key
    rw [show p = (p.1, p.2) from rfl]
    simp only [collectLora]
    cases hlp : loraParse p.1 with
    | none =>
      cases hbl : baseLayerParse p.1 with
      | none =>
        rw [ih es bs key]
        simp only [List.mem_cons]
        constructor
        · intro h
          rcases h with h | ⟨q, hq, hrest⟩
          · exact Or.inl h
          · exact Or.inr ⟨q, Or.inr hq, hrest⟩
        · intro h
          rcases h with h | ⟨q, hq, m, ad, hpar, hkey⟩
          · exact Or.inl h
          · rcases hq with hq | hq
            · rw [hq] at hpar
              rw [hlp] at hpar
              exact Option.noConfusion hpar
            · exact Or.inr ⟨q, hq, m, ad, hpar, hkey⟩
      | some m0 =>
        rw [ih es _ key]
        simp only [List.mem_cons]
        constructor
        · intro h
          rcases h with h | ⟨q, hq, hrest⟩
          · exact Or.inl h
          · exact Or.inr ⟨q, Or.inr hq, hrest⟩
        · intro h
          rcases h with h | ⟨q, hq, m, ad, hpar, hkey⟩
          · exact Or.inl h
          · rcases hq with hq | hq
            · rw [hq] at hpar
              rw [hlp] at hpar
              exact Option.noConfusion hpar
            · exact Or.inr ⟨q, hq, m, ad, hpar, hkey⟩
    | some t =>
      obtain ⟨m0, isA, ad0⟩ := t
      rw [ih _ bs key]
      have haux : entryHasB
          (aset es (m0 ++ sepPP ++ ad0)
            (if isA = true then
              { (alookup es (m0 ++ sepPP ++ ad0)).getD ⟨none, none⟩ with a := some (p.1, p.2) }
            else
              { (alookup es (m0 ++ sepPP ++ ad0)).getD ⟨none, none⟩ with b := some (p.1, p.2) }))
          key ↔
          entryHasB es key ∨
            (∃ m ad, loraParse p.1 = some (m, false, ad) ∧ key = m ++ sepPP ++ ad) := by
        by_cases hkey : key = m0 ++ sepPP ++ ad0
        · subst hkey
          unfold entryHasB
          rw [alookup_aset_self]
          cases hA : isA with
          | false =>
            simp only [Bool.false_eq_true, if_false]
            constructor
            · intro _
              exact Or.inr ⟨m0, ad0, by rw [hlp, hA], rfl⟩
            · intro _
              exact ⟨_, rfl, by simp⟩
          | true =>
            simp only [if_true]
            constructor
            · intro ⟨e, he, hb⟩
              injection he with he
              rw [← he] at hb
              simp only at hb
              cases hlook : alookup es (m0 ++ sepPP ++ ad0) with
              | none => rw [hlook] at hb; simp at hb
              | some e0 =>
                rw [hlook] at hb
                simp only [Option.getD_some] at hb
                exact Or.inl ⟨e0, rfl, hb⟩
            · intro h
              rcases h with ⟨e0, he0, hb0⟩ | ⟨m, ad, hpar, hkey2⟩
              · refine ⟨_, rfl, ?_⟩
                rw [he0]
                simpa using hb0
              · rw [hlp] at hpar
                injection hpar with hpar
                injection hpar with h1 hpar
                injection hpar with h2 h3
                exact absurd h2.symm (by simp [hA])
        · unfold entryHasB
          rw [alookup_aset_ne _ _ _ _ hkey]
          constructor
          · intro h
            exact Or.inl h
          · intro h
            rcases h with h | ⟨m, ad, hpar, hkey2⟩
            · exact h
            · rw [hlp] at hpar
              injection hpar with hpar
              injection hpar with h1 hpar
              injection hpar with h2 h3
              rw [hkey2, h1, h3] at hkey
              exact absurd rfl hkey
      rw [haux]
      simp only [List.mem_cons]
      constructor
      · intro h
        rcases h with (h | h) | ⟨q, hq, hrest⟩
        · exact Or.inl h
        · obtain ⟨m, ad, hpar, hkey⟩ := h
          exact Or.inr ⟨p, Or.inl rfl, m, ad, hpar, hkey⟩
        · exact Or.inr ⟨q, Or.inr hq, hrest⟩
      · intro h
        rcases h with h | ⟨q, hq, m, ad, hpar, hkey⟩
        · exact Or.inl (Or.inl h)
        · rcases hq with hq | hq
          · rw [hq] at hpar
            exact Or.inl (Or.inr ⟨m, ad, hpar, hkey⟩)
          · exact Or.inr ⟨q, hq, m, ad, hpar, hkey⟩

/-- The adapter map has a pair with the given adapter name under the
given module key. -/
def hasPair (res : List (MStr × List LoraAdapterPair)) (m ad : MStr) : Prop :=
  ∃ l, alookup res m = some l ∧ ∃ p ∈ l, p.adapterName = ad

/-- Pushing one pair adds exactly that (module, adapter-name)
combination. -/
theorem hasPair_apush (acc : List (MStr × List LoraAdapterPair)) (k : MStr)
    (p : LoraAdapterPair) (m ad : MStr) :
    hasPair (apush acc k p) m ad ↔ hasPair acc m ad ∨ (k = m ∧ p.adapterName = ad) := by
  unfold hasPair apush
  by_cases hk : k = m
  · subst hk
    cases hlook : alookup acc k with
    | none =>
      rw [alookup_aset_self]
      constructor
      · intro ⟨l, hl, q, hq, hqa⟩
        injection hl with hl
        rw [← hl] at hq
        simp only [List.mem_singleton] at hq
        subst hq
        exact Or.inr ⟨rfl, hqa⟩
      · intro h
        rcases h with ⟨l, hl, hrest⟩ | ⟨_, hpa⟩
        · exact Option.noConfusion hl
        · exact ⟨[p], rfl, p, List.mem_singleton_self _, hpa⟩
    | some l0 =>
      rw [alookup_aset_self]
      constructor
      · intro ⟨l, hl, q, hq, hqa⟩
        injection hl with hl
        rw [← hl] at hq
        rcases List.mem_append.mp hq with hq1 | hq2
        · exact Or.inl ⟨l0, rfl, q, hq1, hqa⟩
        · simp only [List.mem_singleton] at hq2
          subst hq2
          exact Or.inr ⟨rfl, hqa⟩
      · intro h
        rcases h with ⟨l, hl, q, hq, hqa⟩ | ⟨_, hpa⟩
        · injection hl with hl
          exact ⟨l0 ++ [p], rfl, q, List.mem_append.mpr (Or.inl (hl ▸ hq)), hqa⟩
        · exact ⟨l0 ++ [p], rfl, p, List.mem_append.mpr (Or.inr (List.mem_singleton_self _)), hpa⟩
  · have hne : m ≠ k := fun he => hk he.symm
    cases hlook : alookup acc k with
    | none =>
      rw [alookup_aset_ne _ _ _ _ hne]
      constructor
      · exact Or.inl
      · intro h
        rcases h with h | ⟨hkm, _⟩
        · exact h
        · exact absurd hkm hk
    | some l0 =>
      rw [alookup_aset_ne _ _ _ _ hne]
      constructor
      · exact Or.inl
      · intro h
        rcases h with h | ⟨hkm, _⟩
        · exact h
        · exact absurd hkm hk

/-- After the emission loop, a (module, adapter-name) combination is
present exactly when it was in the accumulator or some bucket has both
halves and splits to that module and adapter name. -/
theorem emitPairs_hasPair (cfg : Option AdapterConfigRA) (bs : List MStr) :
    ∀ (entries : List (MStr × LoraEntry)) (acc : List (MStr × List LoraAdapterPair))
      (m ad : MStr),
    hasPair (emitPairs cfg bs entries acc) m ad ↔
      hasPair acc m ad ∨
        ∃ ke ∈ entries, ke.2.a.isSome = true ∧ ke.2.b.isSome = true ∧
          (splitOnPP ke.1).getD 0 [] = m ∧ (splitOnPP ke.1).getD 1 [] = ad := by
  intro entries
  induction entries with
  | nil =>
    intro acc m ad
    simp only [emitPairs]
    constructor
    · exact Or.inl
    · intro h
      rcases h with h | ⟨q, hq, _⟩
      · exact h
      · simp at hq
  | cons ke rest ih =>
    intro acc m ad
    rw [show ke = (ke.1, ke.2) from rfl]
    simp only [emitPairs]
    cases ha : ke.2.a with
    | none =>
      rw [ih]
      simp only [List.mem_cons]
      constructor
      · intro h
        rcases h with h | ⟨q, hq, hrest⟩
        · exact Or.inl h
        · exact Or.inr ⟨q, Or.inr hq, hrest⟩
      · intro h
        rcases h with h | ⟨q, hq, hsa, hsb, hm, had⟩
        · exact Or.inl h
        · rcases hq with hq | hq
          · rw [hq] at hsa
            rw [ha] at hsa
            simp at hsa
          · exact Or.inr ⟨q, hq, hsa, hsb, hm, had⟩
    | some av =>
      cases hb : ke.2.b with
      | none =>
        rw [ih]
        simp only [List.mem_cons]
        constructor
        · intro h
          rcases h with h | ⟨q, hq, hrest⟩
          · exact Or.inl h
          · exact Or.inr ⟨q, Or.inr hq, hrest⟩
        · intro h
          rcases h with h | ⟨q, hq, hsa, hsb, hm, had⟩
          · exact Or.inl h
          · rcases hq with hq | hq
            · rw [hq] at hsb
              rw [hb] at hsb
              simp at hsb
            · exact Or.inr ⟨q, hq, hsa, hsb, hm, had⟩
      | some bv =>
        rw [ih, hasPair_apush]
        simp only [List.mem_cons]
        constructor
        · intro h
          rcases h with (h | ⟨hkm, hpa⟩) | ⟨q, hq, hrest⟩
          · exact Or.inl h
          · refine Or.inr ⟨(ke.1, ke.2), Or.inl rfl, ?_, ?_, hkm, hpa⟩
            · rw [ha]; rfl
            · rw [hb]; rfl
          · exact Or.inr ⟨q, Or.inr hq, hrest⟩
        · intro h
          rcases h with h | ⟨q, hq, hsa, hsb, hm, had⟩
          · exact Or.inl (Or.inl h)
          · rcases hq with hq | hq
            · rw [hq] at hm had
              exact Or.inl (Or.inr ⟨hm, had⟩)
            · exact Or.inr ⟨q, hq, hsa, hsb, hm, had⟩

/-- C7 amended: provided no tensor name contains the pipe character
(which the detector uses in its internal joined grouping key), a
(modulePath, adapterName) group is emitted if and only if both an
A-side and a B-side tensor match that group; and the concrete
single-tensor map with an unpaired lora_A yields an empty adapter map
(the detector is total, raising no error). -/
theorem C7_lora_pairing :
    (∀ (tensors : List (MStr × LoraTensorInfo)) (cfg : Option AdapterConfigRA),
      (∀ p ∈ tensors, ('|') ∉ p.1) →
      ∀ m ad : MStr,
        hasPair (detectLoraAdapters tensors cfg) m ad ↔
          ((∃ p ∈ tensors, loraParse p.1 = some (m, true, ad)) ∧
           (∃ p ∈ tensors, loraParse p.1 = some (m, false, ad)))) ∧
    detectLoraAdapters [((("model.q.lora_A.weight").toList), ⟨[]⟩)] none = [] := by
  constructor
  · intro tensors cfg hp m ad
    unfold detectLoraAdapters
    rw [emitPairs_hasPair]
    have hbase : ¬ hasPair [] m ad := by
      intro ⟨l, hl, _⟩
      exact Option.noConfusion hl
    have hnd : (((collectLora tensors [] []).1).map Prod.fst).Nodup :=
      collectLora_fst_nodup tensors [] [] (by simp)
    constructor
    · intro h
      rcases h with h | ⟨ke, hke, hsa, hsb, hm, had⟩
      · exact absurd h hbase
      · have hlook : alookup (collectLora tensors [] []).1 ke.1 = some ke.2 :=
          alookup_eq_some_of_mem_nodup _ _ _ hnd
            (by rw [show ((ke.1, ke.2) : MStr × LoraEntry) = ke from rfl]; exact hke)
      -- A side
        have hA : entryHasA (collectLora tensors [] []).1 ke.1 := ⟨ke.2, hlook, hsa⟩
        have hB : entryHasB (collectLora tensors [] []).1 ke.1 := ⟨ke.2, hlook, hsb⟩
        rw [collectLora_hasA] at hA
        rw [collectLora_hasB] at hB
        rcases hA with hA0 | ⟨p, hptens, m1, ad1, hpar1, hkey1⟩
        · obtain ⟨e, he, _⟩ := hA0
          exact Option.noConfusion he
        rcases hB with hB0 | ⟨q, hqtens, m2, ad2, hpar2, hkey2⟩
        · obtain ⟨e, he, _⟩ := hB0
          exact Option.noConfusion he
        have hpf1 := loraParse_pipe_free p.1 m1 true ad1 hpar1 (hp p hptens)
        have hpf2 := loraParse_pipe_free q.1 m2 false ad2 hpar2 (hp q hqtens)
        have hsplit1 : splitOnPP ke.1 = [m1, ad1] := by
          rw [hkey1]
          exact splitOnPP_concat ad1 hpf1.2 m1 hpf1.1
        have hsplit2 : splitOnPP ke.1 = [m2, ad2] := by
          rw [hkey2]
          exact splitOnPP_concat ad2 hpf2.2 m2 hpf2.1
        rw [hsplit1] at hm had
        simp only [List.getD_cons_zero, List.getD_cons_succ] at hm had
        have hms : m1 = m := hm
        have hads : ad1 = ad := had
        rw [hsplit1] at hsplit2
        injection hsplit2 with e1 hsplit2
        injection hsplit2 with e2 _
        constructor
        · exact ⟨p, hptens, by rw [hpar1, hms, hads]⟩
        · exact ⟨q, hqtens, by rw [hpar2, ← e1, ← e2, hms, hads]⟩
    · intro ⟨⟨p, hptens, hparA⟩, ⟨q, hqtens, hparB⟩⟩
      have hpf := loraParse_pipe_free p.1 m true ad hparA (hp p hptens)
      have hA : entryHasA (collectLora tensors [] []).1 (m ++ sepPP ++ ad) :=
        (collectLora_hasA tensors [] [] _).mpr
          (Or.inr ⟨p, hptens, m, ad, hparA, rfl⟩)
      have hB : entryHasB (collectLora tensors [] []).1 (m ++ sepPP ++ ad) :=
        (collectLora_hasB tensors [] [] _).mpr
          (Or.inr ⟨q, hqtens, m, ad, hparB, rfl⟩)
      obtain ⟨e, he, hea⟩ := hA
      obtain ⟨e2, he2, heb⟩ := hB
      rw [he] at he2
      injection he2 with he2
      refine Or.inr ⟨(m ++ sepPP ++ ad, e), mem_of_alookup_eq_some _ _ _ he, hea, ?_, ?_, ?_⟩
      · rw [he2]; exact heb
      · rw [splitOnPP_concat ad hpf.2 m hpf.1]; rfl
      · rw [splitOnPP_concat ad hpf.2 m hpf.1]; rfl
  · decide

/-- The concrete tensors of the C7 counterexample: two LoRA halves
whose module paths and adapter names contain the literal separator,
colliding in the joined grouping key. -/
def c7CtrTensors : List (MStr × LoraTensorInfo) :=
  [((("a.lora_A.b||x.weight").toList), ⟨[]⟩),
   ((("a||b.lora_B.x.weight").toList), ⟨[]⟩)]

/-- The pair the detector emits for the colliding key. -/
def c7CtrPair : LoraAdapterPair :=
  ⟨(("a.weight").toList), (("b").toList),
   (("a.lora_A.b||x.weight").toList), (("a||b.lora_B.x.weight").toList),
   none, none, [], []⟩

/-- C7 counterexample: the detector emits a pair for the group with
module path a and adapter name b, although no tensor in the map is an
A-side or B-side tensor of that group (the two unpaired halves collide
in the joined key), refuting the claimed only-if direction. -/
theorem C7_counterexample :
    hasPair (detectLoraAdapters c7CtrTensors none) (("a").toList) (("b").toList) ∧
    (∀ p ∈ c7CtrTensors,
      ¬ loraParse p.1 = some ((("a").toList), true, (("b").toList))) ∧
    (∀ p ∈ c7CtrTensors,
      ¬ loraParse p.1 = some ((("a").toList), false, (("b").toList))) := by
  refine ⟨⟨[c7CtrPair], by decide, c7CtrPair, List.mem_singleton_self _, rfl⟩,
    by decide, by decide⟩

/-- The concrete tensors of the C7 witness: one properly matched pair
with the default adapter name. -/
def c7WitnessTensors : List (MStr × LoraTensorInfo) :=
  [((("q.lora_A.weight").toList), ⟨[]⟩), ((("q.lora_B.weight").toList), ⟨[]⟩)]

/-- C7 witness: the amended pairing equivalence applied at a concrete
matched pair. -/
theorem C7_witness :
    hasPair (detectLoraAdapters c7WitnessTensors none) (("q").toList) (("default").toList) :=
  (C7_lora_pairing.1 c7WitnessTensors none (by decide) (("q").toList)
    (("default").toList)).mpr
    ⟨⟨((("q.lora_A.weight").toList), ⟨[]⟩), by decide, by decide⟩,
     ⟨((("q.lora_B.weight").toList), ⟨[]⟩), by decide, by decide⟩⟩

/-- The sort relation is total: the comparator is antisymmetric in
sign. -/
instance : IsTotal ATree nodeLe where
  total a b := by
    unfold nodeLe nodeCmp
    cases a.blockIndex <;> cases b.blockIndex <;> simp <;> omega

/-- The sort relation is transitive. -/
instance : IsTrans ATree nodeLe where
  trans a b c hab hbc := by
    unfold nodeLe nodeCmp at hab hbc ⊢
    cases ha : a.blockIndex <;> cases hb : b.blockIndex <;> cases hc : c.blockIndex <;>
      rw [ha, hb] at hab <;> rw [hb, hc] at hbc <;> simp at hab hbc ⊢ <;> omega

/-- The pairwise ordering the claim describes: block children come
before named children, blocks ascend by block index, named children
ascend by insertion index. -/
def childOrder (a b : ATree) : Prop :=
  (a.blockIndex.isSome = true → b.blockIndex.isSome = true →
    a.blockIndex.getD 0 ≤ b.blockIndex.getD 0) ∧
  (b.blockIndex.isSome = true → a.blockIndex.isSome = true) ∧
  (a.blockIndex = none → b.blockIndex = none →
    a.insertionIndex.getD 0 ≤ b.insertionIndex.getD 0)

/-- The comparator relation implies the claimed ordering. -/
theorem childOrder_of_nodeLe (a b : ATree) (h : nodeLe a b) : childOrder a b := by
  unfold nodeLe nodeCmp at h
  unfold childOrder
  cases ha : a.blockIndex <;> cases hb : b.blockIndex <;> rw [ha, hb] at h <;>
    simp at h ⊢ <;> omega

mutual
/-- Every children list in the tree satisfies the claimed pairwise
ordering, recursively. -/
def treeOrdered : ATree → Prop
  | .node _ _ _ _ _ _ _ cs => List.Pairwise childOrder cs ∧ forestOrdered cs

/-- treeOrdered over a children list. -/
def forestOrdered : List ATree → Prop
  | [] => True
  | c :: cs => treeOrdered c ∧ forestOrdered cs
end

/-- Forest ordering is elementwise tree ordering. -/
theorem forestOrdered_iff (l : List ATree) :
    forestOrdered l ↔ ∀ c ∈ l, treeOrdered c := by
  induction l with
  | nil => simp [forestOrdered]
  | cons c cs ih =>
    simp only [forestOrdered, ih]
    constructor
    · intro ⟨h1, h2⟩ x hx
      rcases List.mem_cons.mp hx with h | h
      · rw [h]; exact h1
      · exact h2 x h
    · intro h
      exact ⟨h c (List.mem_cons_self _ _), fun x hx => h x (List.mem_cons_of_mem _ hx)⟩

mutual
/-- Size of a tree, for strong induction. -/
def tsize : ATree → Nat
  | .node _ _ _ _ _ _ _ cs => 1 + fsize cs

/-- Size of a forest. -/
def fsize : List ATree → Nat
  | [] => 0
  | c :: cs => tsize c + fsize cs
end

/-- A child is smaller than its forest. -/
theorem tsize_le_of_mem (c : ATree) (cs : List ATree) (h : c ∈ cs) : tsize c ≤ fsize cs := by
  induction cs with
  | nil => simp at h
  | cons hd tl ih =>
    rcases List.mem_cons.mp h with h1 | h2
    · rw [h1, fsize]
      omega
    · rw [fsize]
      have := ih h2
      omega

/-- The mapped forest is the elementwise sort. -/
theorem sortForest_eq_map (cs : List ATree) : sortForest cs = cs.map sortTree := by
  induction cs with
  | nil => rfl
  | cons c cs2 ih => simp only [sortForest, List.map_cons, ih]

/-- Sorting a tree makes every children list pairwise ordered. -/
theorem sortTree_ordered_aux : ∀ (n : Nat) (t : ATree), tsize t ≤ n → treeOrdered (sortTree t) := by
  intro n
  induction n with
  | zero =>
    intro t ht
    obtain ⟨nm, f, ty, b, i, ins, ad, cs⟩ := t
    rw [tsize] at ht
    omega
  | succ n ih =>
    intro t ht
    obtain ⟨nm, f, ty, b, i, ins, ad, cs⟩ := t
    rw [tsize] at ht
    simp only [sortTree, treeOrdered]
    constructor
    · exact (List.sorted_insertionSort nodeLe (sortForest cs)).imp
        (fun hab => childOrder_of_nodeLe _ _ hab)
    · rw [forestOrdered_iff]
      intro c hc
      have hc2 : c ∈ sortForest cs := ((List.perm_insertionSort nodeLe _).mem_iff).mp hc
      rw [sortForest_eq_map] at hc2
      obtain ⟨c0, hc0, hceq⟩ := List.mem_map.mp hc2
      rw [← hceq]
      apply ih c0
      have := tsize_le_of_mem c0 cs hc0
      omega

/-- Sorting a tree makes every children list pairwise ordered. -/
theorem sortTree_ordered (t : ATree) : treeOrdered (sortTree t) :=
  sortTree_ordered_aux (tsize t) t (le_refl _)

/-- C2: after buildArchitectureTree, every children list puts block
children (defined blockIndex) first in ascending index order and
orders the remaining named siblings by ascending insertion index; on
the concrete tensor list norm.weight then embed.weight, the root
children come out in first-appearance order norm, embed — not
alphabetically. -/
theorem C2_sibling_ordering :
    (∀ (tensors : List (MStr × TreeTensorInfo)) (loraMap : List (MStr × List LoraAdapterPair)),
      treeOrdered (buildArchitectureTree tensors loraMap)) ∧
    (buildArchitectureTree
      [((("norm.weight").toList), ⟨(("F32").toList), [1]⟩),
       ((("embed.weight").toList), ⟨(("F32").toList), [1]⟩)] []).children.map ATree.name =
      [("norm").toList, ("embed").toList] := by
  constructor
  · intro tensors loraMap
    exact sortTree_ordered _
  · decide

mutual
/-- The full paths of every parameter leaf in the tree. -/
def paramPaths : ATree → List MStr
  | .node _ fp ty _ _ _ _ cs =>
    (if ty = .parameter then [fp] else []) ++ forestParamPaths cs

/-- Parameter paths of a forest. -/
def forestParamPaths : List ATree → List MStr
  | [] => []
  | c :: cs => paramPaths c ++ forestParamPaths cs
end

/-- Forest membership is membership in some tree. -/
theorem mem_forestParamPaths (l : List ATree) (x : MStr) :
    x ∈ forestParamPaths l ↔ ∃ c ∈ l, x ∈ paramPaths c := by
  induction l with
  | nil => simp [forestParamPaths]
  | cons c cs ih =>
    simp only [forestParamPaths, List.mem_append, ih]
    constructor
    · intro h
      rcases h with h | ⟨c0, hc0, hx⟩
      · exact ⟨c, List.mem_cons_self _ _, h⟩
      · exact ⟨c0, List.mem_cons_of_mem _ hc0, hx⟩
    · intro ⟨c0, hc0, hx⟩
      rcases List.mem_cons.mp hc0 with h1 | h2
      · rw [h1] at hx
        exact Or.inl hx
      · exact Or.inr ⟨c0, h2, hx⟩

/-- Forests concatenate paths over appends. -/
theorem forestParamPaths_append (l1 l2 : List ATree) :
    forestParamPaths (l1 ++ l2) = forestParamPaths l1 ++ forestParamPaths l2 := by
  induction l1 with
  | nil => rfl
  | cons c cs ih =>
    simp only [List.cons_append, forestParamPaths]
    rw [show (cs.append l2) = cs ++ l2 from rfl, ih, List.append_assoc]

/-- Sorting does not change the set of parameter paths. -/
theorem paramPaths_sortTree_aux :
    ∀ (n : Nat) (t : ATree), tsize t ≤ n → ∀ x, x ∈ paramPaths (sortTree t) ↔ x ∈ paramPaths t := by
  intro n
  induction n with
  | zero =>
    intro t ht
    obtain ⟨nm, f, ty, b, i, ins, ad, cs⟩ := t
    rw [tsize] at ht
    omega
  | succ n ih =>
    intro t ht x
    obtain ⟨nm, f, ty, b, i, ins, ad, cs⟩ := t
    rw [tsize] at ht
    simp only [sortTree, paramPaths, List.mem_append]
    constructor
    · intro h
      rcases h with h | h
      · exact Or.inl h
      · rw [mem_forestParamPaths] at h
        obtain ⟨c, hc, hx⟩ := h
        have hc2 : c ∈ sortForest cs := ((List.perm_insertionSort nodeLe _).mem_iff).mp hc
        rw [sortForest_eq_map] at hc2
        obtain ⟨c0, hc0, hceq⟩ := List.mem_map.mp hc2
        rw [← hceq] at hx
        rw [ih c0 (by have := tsize_le_of_mem c0 cs hc0; omega) x] at hx
        exact Or.inr ((mem_forestParamPaths cs x).mpr ⟨c0, hc0, hx⟩)
    · intro h
      rcases h with h | h
      · exact Or.inl h
      · rw [mem_forestParamPaths] at h
        obtain ⟨c0, hc0, hx⟩ := h
        refine Or.inr ((mem_forestParamPaths _ x).mpr ⟨sortTree c0, ?_, ?_⟩)
        · rw [((List.perm_insertionSort nodeLe _).mem_iff), sortForest_eq_map]
          exact List.mem_map.mpr ⟨c0, hc0, rfl⟩
        · rw [ih c0 (by have := tsize_le_of_mem c0 cs hc0; omega) x]
          exact hx

/-- Sorting does not change the set of parameter paths. -/
theorem paramPaths_sortTree (t : ATree) (x : MStr) :
    x ∈ paramPaths (sortTree t) ↔ x ∈ paramPaths t :=
  paramPaths_sortTree_aux (tsize t) t (le_refl _) x

/-- Attaching adapters changes no parameter paths. -/
theorem paramPaths_attachAt :
    ∀ (segs : List MStr) (t : ATree) (pairs : List LoraAdapterPair),
    paramPaths (attachAt t segs pairs) = paramPaths t := by
  intro segs
  induction segs with
  | nil =>
    intro t pairs
    obtain ⟨nm, f, ty, b, i, ins, ad, cs⟩ := t
    rfl
  | cons seg rest ih =>
    intro t pairs
    obtain ⟨nm, f, ty, b, i, ins, ad, cs⟩ := t
    simp only [attachAt, paramPaths]
    congr 1
    induction cs with
    | nil => rfl
    | cons c cs2 ihc =>
      simp only [attachForest]
      by_cases hn : c.name = seg
      · simp only [hn, if_true, forestParamPaths, ih c pairs]
      · simp only [hn, if_false, forestParamPaths]
        rw [ihc]

/-- The attachment pass over the whole adapter map changes no
parameter paths. -/
theorem paramPaths_attach_fold (l : List (MStr × List LoraAdapterPair)) :
    ∀ t, paramPaths (l.foldl (fun t kv => attachAt t (splitOnDot kv.1) kv.2) t) =
      paramPaths t := by
  induction l with
  | nil => intro t; rfl
  | cons kv rest ih =>
    intro t
    simp only [List.foldl_cons]
    rw [ih, paramPaths_attachAt]

/-- Splitting then joining on dots is the identity. -/
theorem joinDots_splitOnDot (s : MStr) : joinDots (splitOnDot s) = s := by
  have haux : ∀ (c : Char) (s0 : MStr) (ss : List MStr),
      joinDots ((c :: s0) :: ss) = c :: joinDots (s0 :: ss) := by
    intro c s0 ss
    cases ss with
    | nil => rfl
    | cons x xs => rfl
  induction s using splitOnDot.induct with
  | case1 => rfl
  | case2 rest ih =>
    simp only [splitOnDot, if_true]
    cases hsp : splitOnDot rest with
    | nil => exact absurd hsp (splitOnDot_ne_nil rest)
    | cons s0 ss =>
      rw [hsp] at ih
      show joinDots ([] :: s0 :: ss) = '.' :: rest
      rw [show joinDots ([] :: s0 :: ss) = [] ++ '.' :: joinDots (s0 :: ss) from rfl]
      rw [ih]
      rfl
  | case3 c rest hdot s0 ss hsp ih =>
    simp only [splitOnDot, hdot, if_false]
    rw [hsp]
    rw [hsp] at ih
    rw [haux c s0 ss, ih]
  | case4 c rest hdot hsp ih => exact absurd hsp (splitOnDot_ne_nil rest)

/-- Intermediate nodes are never parameters. -/
theorem classifyNodeType_ne_parameter (seg : MStr) : classifyNodeType seg ≠ .parameter := by
  unfold classifyNodeType
  split <;> simp

/-- Inserting a tensor adds exactly one parameter path: the dot join of
the consumed and remaining segments. -/
theorem paramPaths_insertSegs :
    ∀ (rest done : List MStr) (info : TreeTensorInfo) (ctr : Nat) (t : ATree) (x : MStr),
    rest ≠ [] →
    (x ∈ paramPaths (insertSegs info ctr done rest t) ↔
      x = joinDots (done ++ rest) ∨ x ∈ paramPaths t) := by
  intro rest
  induction rest with
  | nil => intro done info ctr t x h; exact absurd rfl h
  | cons seg rest2 ih =>
    intro done info ctr t x _
    cases rest2 with
    | nil =>
      obtain ⟨nm, f, ty, b, i, ins, ad, cs⟩ := t
      simp only [insertSegs, paramPaths, forestParamPaths_append, List.mem_append]
      have hleaf : forestParamPaths
          [ATree.node seg (joinDots (done ++ [seg])) .parameter none (some info) (some ctr) [] []] =
          [joinDots (done ++ [seg])] := rfl
      rw [hleaf]
      simp only [List.mem_singleton]
      tauto
    | cons s1 rest3 =>
      obtain ⟨nm, f, ty, b, i, ins, ad, cs⟩ := t
      simp only [insertSegs, paramPaths, List.mem_append]
      have hjoin : joinDots ((done ++ [seg]) ++ s1 :: rest3) =
          joinDots (done ++ seg :: s1 :: rest3) := by
        rw [List.append_assoc]
        rfl
      have haux : ∀ cs0 : List ATree,
          x ∈ forestParamPaths
            (updateFirstOrAppend seg
              (fun _ =>
                let nt := classifyNodeType seg
                .node seg (joinDots (done ++ [seg])) nt
                  (if nt = .block ∧ isNumericSegment seg then some (parseDigits seg) else none)
                  none (some ctr) [] [])
              (fun c => insertSegs info ctr (done ++ [seg]) (s1 :: rest3) c) cs0) ↔
            x = joinDots (done ++ seg :: s1 :: rest3) ∨ x ∈ forestParamPaths cs0 := by
        intro cs0
        induction cs0 with
        | nil =>
          simp only [updateFirstOrAppend, forestParamPaths]
          rw [List.append_nil]
          rw [ih (done ++ [seg]) info ctr _ x (by simp)]
          rw [hjoin]
          constructor
          · intro h
            rcases h with h | h
            · exact Or.inl h
            · simp only [paramPaths] at h
              rw [if_neg (classifyNodeType_ne_parameter seg)] at h
              simp [forestParamPaths] at h
          · intro h
            rcases h with h | h
            · exact Or.inl h
            · simp at h
        | cons c cs2 ihc =>
          simp only [updateFirstOrAppend]
          by_cases hn : c.name = seg
          · simp only [hn, if_true, forestParamPaths, List.mem_append]
            rw [ih (done ++ [seg]) info ctr c x (by simp)]
            rw [hjoin]
            tauto
          · simp only [hn, if_false, forestParamPaths, List.mem_append, ihc]
            tauto
      rw [haux cs]
      tauto

/-- Inserting one tensor adds exactly its name as a parameter path. -/
theorem paramPaths_insertTensor (t : ATree) (name : MStr) (info : TreeTensorInfo)
    (ctr : Nat) (x : MStr) :
    x ∈ paramPaths (insertTensor t name info ctr) ↔ x = name ∨ x ∈ paramPaths t := by
  unfold insertTensor
  rw [paramPaths_insertSegs (splitOnDot name) [] info ctr t x (splitOnDot_ne_nil name)]
  rw [List.nil_append, joinDots_splitOnDot]

/-- The insertion loop creates exactly the parameter paths of the
non-excluded tensor names. -/
theorem paramPaths_insertAll (excluded : MStr → Bool) :
    ∀ (ts : List (MStr × TreeTensorInfo)) (t : ATree) (ctr : Nat) (x : MStr),
    x ∈ paramPaths (insertAll excluded ts t ctr) ↔
      x ∈ paramPaths t ∨ ∃ p ∈ ts, excluded p.1 = false ∧ x = p.1 := by
  intro ts
  induction ts with
  | nil =>
    intro t ctr x
    simp only [insertAll]
    constructor
    · exact Or.inl
    · intro h
      rcases h with h | ⟨p, hp, _⟩
      · exact h
      · simp at hp
  | cons p rest ih =>
    intro t ctr x
    rw [show p = (p.1, p.2) from rfl]
    simp only [insertAll]
    by_cases he : excluded p.1
    · rw [if_pos he, ih]
      simp only [List.mem_cons]
      constructor
      · intro h
        rcases h with h | ⟨q, hq, hqe, hqx⟩
        · exact Or.inl h
        · exact Or.inr ⟨q, Or.inr hq, hqe, hqx⟩
      · intro h
        rcases h with h | ⟨q, hq, hqe, hqx⟩
        · exact Or.inl h
        · rcases hq with hq | hq
          · rw [hq] at hqe
            simp only at hqe
            rw [he] at hqe
            exact Bool.noConfusion hqe
          · exact Or.inr ⟨q, hq, hqe, hqx⟩
    · rw [if_neg he, ih, paramPaths_insertTensor]
      simp only [List.mem_cons]
      constructor
      · intro h
        rcases h with (h | h) | ⟨q, hq, hqe, hqx⟩
        · exact Or.inr ⟨(p.1, p.2), Or.inl rfl, by simpa using he, h⟩
        · exact Or.inl h
        · exact Or.inr ⟨q, Or.inr hq, hqe, hqx⟩
      · intro h
        rcases h with h | ⟨q, hq, hqe, hqx⟩
        · exact Or.inl (Or.inr h)
        · rcases hq with hq | hq
          · rw [hq] at hqx
            exact Or.inl (Or.inl hqx)
          · exact Or.inr ⟨q, hq, hqe, hqx⟩

/-- Membership in the LoRA exclusion set is being an A or B tensor name
of some pair of the adapter map. -/
theorem mem_collectLoraNames (loraMap : List (MStr × List LoraAdapterPair)) (name : MStr) :
    name ∈ collectLoraNames loraMap ↔
      ∃ mp ∈ loraMap, ∃ p ∈ mp.2, name = p.loraAName ∨ name = p.loraBName := by
  unfold collectLoraNames
  simp only [List.mem_flatten, List.mem_map, List.map_map]
  constructor
  · intro ⟨l, hl, hname⟩
    obtain ⟨M, hM, hlM⟩ := hl
    obtain ⟨mp, hmp, hMeq⟩ := hM
    rw [← hMeq] at hlM
    obtain ⟨p, hp, hleq⟩ := List.mem_map.mp hlM
    rw [← hleq] at hname
    rcases List.mem_cons.mp hname with h1 | h2
    · exact ⟨mp, hmp, p, hp, Or.inl h1⟩
    · simp only [List.mem_singleton] at h2
      exact ⟨mp, hmp, p, hp, Or.inr h2⟩
  · intro ⟨mp, hmp, p, hp, hor⟩
    refine ⟨[p.loraAName, p.loraBName],
      ⟨_, ⟨mp, hmp, rfl⟩, List.mem_map.mpr ⟨p, hp, rfl⟩⟩, ?_⟩
    rcases hor with h | h
    · rw [h]; exact List.mem_cons_self _ _
    · rw [h]; exact List.mem_cons_of_mem _ (List.mem_singleton_self _)

/-- C3: a tensor name recorded in the given adapter map as a LoRA A or
B tensor never becomes a parameter leaf of the built tree, and every
parameter leaf of the tree is a tensor of the map that is neither in
the exclusion set nor matched by the LoRA name pattern. -/
theorem C3_lora_exclusion (tensors : List (MStr × TreeTensorInfo))
    (loraMap : List (MStr × List LoraAdapterPair)) :
    (∀ name, (∃ mp ∈ loraMap, ∃ p ∈ mp.2, name = p.loraAName ∨ name = p.loraBName) →
      name ∉ paramPaths (buildArchitectureTree tensors loraMap)) ∧
    (∀ x ∈ paramPaths (buildArchitectureTree tensors loraMap),
      ∃ info, (x, info) ∈ tensors ∧ x ∉ collectLoraNames loraMap ∧
        loraPatternTest x = false) := by
  have hkey : ∀ x, x ∈ paramPaths (buildArchitectureTree tensors loraMap) ↔
      ∃ p ∈ tensors,
        (decide (p.1 ∈ collectLoraNames loraMap) || loraPatternTest p.1) = false ∧
        x = p.1 := by
    intro x
    unfold buildArchitectureTree
    dsimp only
    rw [paramPaths_sortTree, paramPaths_attach_fold, paramPaths_insertAll]
    have hroot : paramPaths (ATree.node (("model").toList) [] .root none none none [] []) =
        [] := rfl
    rw [hroot]
    simp only [List.not_mem_nil, false_or]
  constructor
  · intro name hname hmem
    rw [hkey] at hmem
    obtain ⟨p, hp, hex, hxp⟩ := hmem
    rw [hxp] at hname
    have : decide (p.1 ∈ collectLoraNames loraMap) = true :=
      decide_eq_true ((mem_collectLoraNames loraMap p.1).mpr hname)
    rw [this] at hex
    simp at hex
  · intro x hx
    rw [hkey] at hx
    obtain ⟨p, hp, hex, hxp⟩ := hx
    subst hxp
    rw [Bool.or_eq_false_iff] at hex
    refine ⟨p.2, hp, ?_, hex.2⟩
    intro hcon
    have h1 := hex.1
    rw [decide_eq_true hcon] at h1
    exact Bool.noConfusion h1

/-- The concrete adapter pair of the C3 witness. -/
def c3Pair : LoraAdapterPair :=
  ⟨(("q.weight").toList), (("default").toList),
   (("q.lora_A.weight").toList), (("q.lora_B.weight").toList), none, none, [], []⟩

/-- The concrete tensors of the C3 witness. -/
def c3Tensors : List (MStr × TreeTensorInfo) :=
  [((("q.lora_A.weight").toList), ⟨(("F32").toList), [1]⟩),
   ((("q.weight").toList), ⟨(("F32").toList), [1]⟩)]

/-- C3 witness: the exclusion theorem applied at a concrete map whose
pair names the lora_A tensor. -/
theorem C3_witness :
    (("q.lora_A.weight").toList) ∉
      paramPaths (buildArchitectureTree c3Tensors [((("q").toList), [c3Pair])]) :=
  (C3_lora_exclusion c3Tensors [((("q").toList), [c3Pair])]).1 _
    ⟨((("q").toList), [c3Pair]), List.mem_singleton_self _,
      c3Pair, List.mem_singleton_self _, Or.inl rfl⟩

/-- Parsing the written file decodes the header JSON the serializer
built (JSON.parse inverting JSON.stringify, trailing pad spaces
ignored). -/
def parseFile (f : ModelFile) : Except HeaderError ParsedHeader :=
  parseHeaderJson f.header

/-- Assigning a list of fresh, unique properties appends them in
order. -/
theorem foldl_aset_eq_append {α : Type} (l : List (MStr × α)) :
    ∀ base : List (MStr × α),
    (∀ kv ∈ l, alookup base kv.1 = none) → (l.map Prod.fst).Nodup →
    l.foldl (fun o kv => aset o kv.1 kv.2) base = base ++ l := by
  induction l with
  | nil => intro base _ _; simp
  | cons hd tl ih =>
    intro base hfresh hnd
    simp only [List.map_cons, List.nodup_cons] at hnd
    simp only [List.foldl_cons]
    rw [aset_eq_append _ _ _ (hfresh hd (List.mem_cons_self _ _))]
    rw [ih (base ++ [(hd.1, hd.2)])
      (fun kv hkv => by
        rw [alookup_append]
        have h1 : alookup base kv.1 = none := hfresh kv (List.mem_cons_of_mem _ hkv)
        have h2 : ¬ hd.1 = kv.1 := by
          intro he
          exact hnd.1 (he ▸ (List.mem_map.mpr ⟨kv, hkv, rfl⟩))
        simp [h1, alookup, h2])
      hnd.2]
    simp [List.append_assoc]

/-- The header entries carry the same keys as the resolved tensors. -/
theorem headerEntriesFrom_fst (l : List (MStr × SerializedTensorInfo)) :
    ∀ off, (headerEntriesFrom l off).map Prod.fst = l.map Prod.fst := by
  induction l with
  | nil => intro off; rfl
  | cons hd tl ih =>
    intro off
    rw [show hd = (hd.1, hd.2) from rfl]
    simp only [headerEntriesFrom, List.map_cons]
    rw [ih]

/-- The tensor record the parser reconstructs from one written header
entry. -/
def parsedEntryOf (t : SerializedTensorInfo) (off : Nat) : TensorInfo :=
  ⟨t.dtype, t.shape.map Json.num, ((off : Int), ((off + t.byteLength : Nat) : Int))⟩

/-- The tensor records the parser reconstructs from the whole written
header, with the running offsets of the serializer. -/
def parsedEntriesOf : List (MStr × SerializedTensorInfo) → Nat → List (MStr × TensorInfo)
  | [], _ => []
  | (n, t) :: rest, off => (n, parsedEntryOf t off) :: parsedEntriesOf rest (off + t.byteLength)

/-- The reconstructed records carry the same keys. -/
theorem parsedEntriesOf_fst (l : List (MStr × SerializedTensorInfo)) :
    ∀ off, (parsedEntriesOf l off).map Prod.fst = l.map Prod.fst := by
  induction l with
  | nil => intro off; rfl
  | cons hd tl ih =>
    intro off
    rw [show hd = (hd.1, hd.2) from rfl]
    simp only [parsedEntriesOf, List.map_cons]
    rw [ih]

/-- The dtype check on a written entry sees exactly the written
dtype. -/
theorem dtypeCheck_tensorEntry (t : SerializedTensorInfo) (off : Nat) :
    dtypeCheck (tensorEntryJson t off) =
      if t.dtype ∈ VALID_DTYPES then some t.dtype else none := rfl

/-- The shape check on a written entry sees exactly the written
shape array. -/
theorem shapeCheck_tensorEntry (t : SerializedTensorInfo) (off : Nat) :
    shapeCheck (tensorEntryJson t off) = some (t.shape.map Json.num) := rfl

/-- The offsets check on a written entry sees exactly the written
offset pair. -/
theorem offsetsCheck_tensorEntry (t : SerializedTensorInfo) (off : Nat) :
    offsetsCheck (tensorEntryJson t off) =
      some (((off : Nat) : Int), ((off + t.byteLength : Nat) : Int)) := rfl

/-- Parsing the written tensor entries succeeds and reconstructs the
records in order. -/
theorem parseEntries_headerEntriesFrom (l : List (MStr × SerializedTensorInfo)) :
    ∀ (off : Nat) (md : List (MStr × MStr)) (ts : List (MStr × TensorInfo)),
    (∀ kv ∈ l, kv.2.dtype ∈ VALID_DTYPES) →
    (∀ kv ∈ l, kv.1 ≠ ("__metadata__").toList) →
    (∀ kv ∈ l, alookup ts kv.1 = none) →
    (l.map Prod.fst).Nodup →
    parseEntries (headerEntriesFrom l off) md ts = .ok (md, ts ++ parsedEntriesOf l off) := by
  induction l with
  | nil => intro off md ts _ _ _ _; simp [headerEntriesFrom, parseEntries, parsedEntriesOf]
  | cons hd tl ih =>
    intro off md ts hval hmeta hfresh hnd
    simp only [List.map_cons, List.nodup_cons] at hnd
    rw [show hd = (hd.1, hd.2) from rfl]
    simp only [headerEntriesFrom, parseEntries, parsedEntriesOf]
    rw [if_neg (hmeta hd (List.mem_cons_self _ _))]
    rw [dtypeCheck_tensorEntry, if_pos (hval hd (List.mem_cons_self _ _))]
    rw [shapeCheck_tensorEntry, offsetsCheck_tensorEntry]
    dsimp only
    rw [aset_eq_append _ _ _ (hfresh hd (List.mem_cons_self _ _))]
    exact (ih (off + hd.2.byteLength) md (ts ++ [(hd.1, parsedEntryOf hd.2 off)])
      (fun kv hkv => hval kv (List.mem_cons_of_mem _ hkv))
      (fun kv hkv => hmeta kv (List.mem_cons_of_mem _ hkv))
      (fun kv hkv => by
        rw [alookup_append]
        have h1 : alookup ts kv.1 = none := hfresh kv (List.mem_cons_of_mem _ hkv)
        have h2 : ¬ hd.1 = kv.1 := by
          intro he
          exact hnd.1 (he ▸ (List.mem_map.mpr ⟨kv, hkv, rfl⟩))
        simp [h1, alookup, h2])
      hnd.2).trans (by rw [List.append_assoc]; rfl)

/-- Reading back the written offsets of any reconstructed record
returns exactly the original tensor bytes: the offsets are contiguous
over the written data region. -/
theorem read_correct (l : List (MStr × SerializedTensorInfo)) :
    ∀ (base : List Nat) (n : MStr) (rec : TensorInfo),
    (∀ kv ∈ l, kv.2.byteLength = kv.2.data.length) →
    alookup (parsedEntriesOf l base.length) n = some rec →
    ∃ t, alookup l n = some t ∧ rec.dtype = t.dtype ∧ rec.shape = t.shape.map Json.num ∧
      ∃ s e : Nat, rec.dataOffsets = ((s : Int), (e : Int)) ∧
        ((base ++ dataFrom l).drop s).take (e - s) = t.data := by
  induction l with
  | nil => intro base n rec _ h; simp [parsedEntriesOf, alookup] at h
  | cons hd tl ih =>
    intro base n rec hlen hlook
    have hdl : hd.2.byteLength = hd.2.data.length := hlen hd (List.mem_cons_self _ _)
    rw [show hd = (hd.1, hd.2) from rfl] at hlook
    simp only [parsedEntriesOf, alookup] at hlook
    by_cases hk : hd.1 = n
    · rw [if_pos hk] at hlook
      injection hlook with hlook
      refine ⟨hd.2, ?_, ?_, ?_, base.length, base.length + hd.2.byteLength, ?_, ?_⟩
      · rw [show hd = (hd.1, hd.2) from rfl, alookup, if_pos hk]
      · rw [← hlook]; rfl
      · rw [← hlook]; rfl
      · rw [← hlook]; rfl
      · rw [show hd = (hd.1, hd.2) from rfl, dataFrom]
        rw [show base ++ (hd.2.data ++ dataFrom tl) = (base ++ hd.2.data) ++ dataFrom tl
          from by rw [List.append_assoc]]
        have hdrop : ((base ++ hd.2.data) ++ dataFrom tl).drop base.length =
            hd.2.data ++ dataFrom tl := by
          rw [List.append_assoc, List.drop_left]
        rw [hdrop]
        have htake : base.length + hd.2.byteLength - base.length = hd.2.data.length := by
          omega
        rw [htake, List.take_left]
    · rw [if_neg hk] at hlook
      have hbase2 : (base ++ hd.2.data).length = base.length + hd.2.byteLength := by
        rw [List.length_append]
        omega
      rw [← hbase2] at hlook
      obtain ⟨t, hlt, hdt, hsh, s, e, hoff, hslice⟩ :=
        ih (base ++ hd.2.data) n rec (fun kv hkv => hlen kv (List.mem_cons_of_mem _ hkv)) hlook
      refine ⟨t, ?_, hdt, hsh, s, e, hoff, ?_⟩
      · rw [show hd = (hd.1, hd.2) from rfl, alookup, if_neg hk]
        exact hlt
      · rw [show hd = (hd.1, hd.2) from rfl, dataFrom]
        rw [show base ++ (hd.2.data ++ dataFrom tl) = (base ++ hd.2.data) ++ dataFrom tl
          from by rw [List.append_assoc]]
        exact hslice

/-- A resolved entry looks up to its record in the input map. -/
theorem alookup_of_mem_resolveSorted (input : SerializationInput) (n : MStr)
    (t : SerializedTensorInfo) (h : (n, t) ∈ resolveSorted input) :
    alookup input.tensors n = some t := by
  unfold resolveSorted at h
  obtain ⟨n0, hn0, heq⟩ := List.mem_filterMap.mp h
  cases hl : alookup input.tensors n0 with
  | none => rw [hl] at heq; exact Option.noConfusion heq
  | some t0 =>
    rw [hl] at heq
    simp only [Option.map_some', Option.some.injEq, Prod.mk.injEq] at heq
    rw [← heq.1, hl, heq.2]

/-- The resolved keys are exactly the input keys. -/
theorem mem_fst_resolveSorted (input : SerializationInput) (n : MStr) :
    n ∈ (resolveSorted input).map Prod.fst ↔ n ∈ input.tensors.map Prod.fst := by
  constructor
  · intro h
    obtain ⟨kv, hkv, hfst⟩ := List.mem_map.mp h
    rw [show kv = (kv.1, kv.2) from rfl] at hkv
    have := alookup_of_mem_resolveSorted input kv.1 kv.2 hkv
    rw [← hfst]
    exact List.mem_map.mpr ⟨(kv.1, kv.2), mem_of_alookup_eq_some _ _ _ this, rfl⟩
  · intro h
    obtain ⟨kv, hkv, hfst⟩ := List.mem_map.mp h
    have hsorted : n ∈ List.insertionSort (fun a b => strLeb a b = true)
        (input.tensors.map Prod.fst) :=
      ((List.perm_insertionSort _ _).mem_iff).mpr (hfst ▸ List.mem_map.mpr ⟨kv, hkv, rfl⟩)
    have hsome : (alookup input.tensors n).isSome := by
      rw [show kv = (kv.1, kv.2) from rfl] at hkv
      rw [← hfst]
      exact alookup_isSome_of_mem _ _ _ hkv
    cases hl : alookup input.tensors n with
    | none => rw [hl] at hsome; exact Bool.noConfusion hsome
    | some t =>
      refine List.mem_map.mpr ⟨(n, t), ?_, rfl⟩
      unfold resolveSorted
      exact List.mem_filterMap.mpr ⟨n, hsorted, by rw [hl]; rfl⟩

/-- The keys of a lookup-resolving filterMap form a sublist of the
scanned names. -/
theorem filterMap_lookup_fst_sublist {α : Type} (g : MStr → Option α) :
    ∀ l : List MStr,
    ((l.filterMap (fun n => (g n).map (fun t => (n, t)))).map Prod.fst).Sublist l := by
  intro l
  induction l with
  | nil => simp
  | cons hd tl ih =>
    simp only [List.filterMap_cons]
    cases hg : g hd with
    | none => exact ih.cons hd
    | some t =>
      simp only [Option.map_some', List.map_cons]
      exact ih.cons₂ hd

/-- The resolved keys are unique when the input keys are. -/
theorem resolveSorted_fst_nodup (input : SerializationInput)
    (hnd : (input.tensors.map Prod.fst).Nodup) :
    ((resolveSorted input).map Prod.fst).Nodup := by
  have hperm : (List.insertionSort (fun a b => strLeb a b = true)
      (input.tensors.map Prod.fst)).Nodup :=
    ((List.perm_insertionSort _ _).nodup_iff).mpr hnd
  exact (filterMap_lookup_fst_sublist _ _).nodup hperm

/-- C1 amended: for every tensor map with unique names, valid dtypes,
byte lengths matching the data buffers, and no tensor named
__metadata__ (the reserved header key, which the claim must exclude),
parsing the serialized file succeeds with the same key set, the same
dtype and shape per key, and reading each data_offsets range back from
the written data region returns the original bytes. -/
theorem C1_round_trip (input : SerializationInput)
    (hnd : (input.tensors.map Prod.fst).Nodup)
    (hval : ∀ kv ∈ input.tensors, kv.2.dtype ∈ VALID_DTYPES)
    (hlen : ∀ kv ∈ input.tensors, kv.2.byteLength = kv.2.data.length)
    (hmeta : ∀ kv ∈ input.tensors, kv.1 ≠ ("__metadata__").toList) :
    ∃ h : ParsedHeader, parseFile (serialize input) = .ok h ∧
      (∀ n, n ∈ h.tensors.map Prod.fst ↔ n ∈ input.tensors.map Prod.fst) ∧
      (∀ n rec, alookup h.tensors n = some rec →
        ∃ t, alookup input.tensors n = some t ∧
          rec.dtype = t.dtype ∧ rec.shape = t.shape.map Json.num ∧
          ∃ s e : Nat, rec.dataOffsets = ((s : Int), (e : Int)) ∧
            readTensorData (serialize input) s e = t.data) := by
  have hresin : ∀ kv ∈ resolveSorted input, kv ∈ input.tensors := by
    intro kv hkv
    rw [show kv = (kv.1, kv.2) from rfl] at hkv ⊢
    exact mem_of_alookup_eq_some _ _ _ (alookup_of_mem_resolveSorted input kv.1 kv.2 hkv)
  have hvalr : ∀ kv ∈ resolveSorted input, kv.2.dtype ∈ VALID_DTYPES :=
    fun kv h => hval kv (hresin kv h)
  have hlenr : ∀ kv ∈ resolveSorted input, kv.2.byteLength = kv.2.data.length :=
    fun kv h => hlen kv (hresin kv h)
  have hmetar : ∀ kv ∈ resolveSorted input, kv.1 ≠ ("__metadata__").toList :=
    fun kv h => hmeta kv (hresin kv h)
  have hndr := resolveSorted_fst_nodup input hnd
  have hser : serialize input = {
      header := .obj ([((("__metadata__").toList),
          .obj (input.metadata.map (fun kv => (kv.1, Json.str kv.2))))] ++
        headerEntriesFrom (resolveSorted input) 0),
      data := dataFrom (resolveSorted input) } := by
    unfold serialize
    dsimp only
    congr 1
    rw [foldl_aset_eq_append]
    · intro kv hkv
      have hkey : kv.1 ∈ (headerEntriesFrom (resolveSorted input) 0).map Prod.fst :=
        List.mem_map.mpr ⟨kv, hkv, rfl⟩
      rw [headerEntriesFrom_fst] at hkey
      obtain ⟨kv0, hkv0, hfst⟩ := List.mem_map.mp hkey
      have hne : kv.1 ≠ ("__metadata__").toList := hfst ▸ hmetar kv0 hkv0
      have hne2 : ¬ ("__metadata__").toList = kv.1 := fun he => hne he.symm
      simp only [alookup]
      rw [if_neg hne2]
    · rw [headerEntriesFrom_fst]
      exact hndr
  refine ⟨⟨copyMetadata []
      (Json.obj (input.metadata.map (fun kv => (kv.1, Json.str kv.2)))),
    parsedEntriesOf (resolveSorted input) 0⟩, ?_, ?_, ?_⟩
  · have hstep := parseEntries_headerEntriesFrom (resolveSorted input) 0
      (copyMetadata [] (Json.obj (input.metadata.map (fun kv => (kv.1, Json.str kv.2))))) []
      hvalr hmetar (fun kv _ => rfl) hndr
    unfold parseFile
    rw [hser]
    simp only [List.singleton_append]
    simp only [parseHeaderJson, parseEntries]
    rw [if_pos trivial, hstep]
    simp only [List.nil_append]
  · intro n
    simp only
    rw [parsedEntriesOf_fst]
    exact mem_fst_resolveSorted input n
  · intro n rec hlook
    simp only at hlook
    have hlook2 : alookup (parsedEntriesOf (resolveSorted input)
        (([] : List Nat)).length) n = some rec := hlook
    obtain ⟨t, hlt, hdt, hsh, s, e, hoff, hslice⟩ :=
      read_correct (resolveSorted input) [] n rec hlenr hlook2
    refine ⟨t, ?_, hdt, hsh, s, e, hoff, ?_⟩
    · exact alookup_of_mem_resolveSorted input n t (mem_of_alookup_eq_some _ _ _ hlt)
    · unfold readTensorData
      rw [hser]
      exact hslice

/-- Round-trip counterexample input: a single valid tensor whose name
is the reserved header key __metadata__. -/
def c1CtrInput : SerializationInput :=
  { metadata := [],
    tensors := [((("__metadata__").toList), ⟨(("F32").toList), [], 0, []⟩)] }

/-- C1 counterexample: the input satisfies every condition the claim
states (unique names, valid dtype, byteLength matching the buffer),
yet parsing the serialized file yields an empty tensor map: the
serializer stores the tensor under the header key __metadata__,
overwriting the metadata entry, and the parser then consumes that
entry as metadata, so the tensor named __metadata__ is lost. -/
theorem C1_counterexample :
    ((c1CtrInput.tensors.map Prod.fst).Nodup ∧
      (∀ kv ∈ c1CtrInput.tensors, kv.2.dtype ∈ VALID_DTYPES) ∧
      (∀ kv ∈ c1CtrInput.tensors, kv.2.byteLength = kv.2.data.length)) ∧
    c1CtrInput.tensors.map Prod.fst = [("__metadata__").toList] ∧
    (parseFile (serialize c1CtrInput)).toOption.map
      (fun h => h.tensors.map Prod.fst) = some [] := by
  refine ⟨⟨by decide, by decide, by decide⟩, rfl, ?_⟩
  rfl

/-- Witness input for the amended round trip: one F32 tensor of shape
[2] with two data bytes. -/
def c1WitInput : SerializationInput :=
  { metadata := [((("k").toList), (("v").toList))],
    tensors := [((("w").toList), ⟨(("F32").toList), [(2 : Int)], 2, [10, 20]⟩)] }

/-- C1 witness: the amended round trip at a concrete one-tensor
input. -/
theorem C1_witness :
    ∃ h : ParsedHeader, parseFile (serialize c1WitInput) = .ok h ∧
      (∀ n, n ∈ h.tensors.map Prod.fst ↔ n ∈ c1WitInput.tensors.map Prod.fst) ∧
      (∀ n rec, alookup h.tensors n = some rec →
        ∃ t, alookup c1WitInput.tensors n = some t ∧
          rec.dtype = t.dtype ∧ rec.shape = t.shape.map Json.num ∧
          ∃ s e : Nat, rec.dataOffsets = ((s : Int), (e : Int)) ∧
            readTensorData (serialize c1WitInput) s e = t.data) :=
  C1_round_trip c1WitInput (by decide) (by decide) (by decide) (by decide)
